import Mathlib

/-!
Shallow embedding of the ghostpad2 tool-augmented streaming inference
orchestrator (src/services/chat_service.py, src/services/tool_service.py)
together with a model of the parts of the Python standard library the
embedded code calls (json.loads).  Definitions are translated from the
source; theorems settle the specification claims against them.
-/

namespace Ghostpad

/-! ## JSON value model

Python's `json.loads` is modelled over a JSON value type.  Restrictions of
the model, stated once here: numbers are integers (no fraction/exponent),
string literals carry their characters verbatim (no escape sequences; the
well-formedness predicate `wfJson` below excludes the quote and backslash
characters from strings, keeping rendered values inside the fragment on
which this model and CPython's `json` agree), and no whitespace is accepted
between tokens (`jsonLoads` strips leading and trailing whitespace, as
`json.loads` does).  All strings appearing in the claims' inputs lie in
this common fragment. -/

mutual

inductive Json where
  | null : Json
  | bool (b : Bool) : Json
  | num (n : Int) : Json
  | str (s : List Char) : Json
  | arr (es : JsonList) : Json
  | obj (ms : JsonMembers) : Json

inductive JsonList where
  | nil : JsonList
  | cons (v : Json) (tl : JsonList) : JsonList

inductive JsonMembers where
  | nil : JsonMembers
  | cons (k : List Char) (v : Json) (tl : JsonMembers) : JsonMembers

end

deriving instance DecidableEq for Json, JsonList, JsonMembers

/-- The opening brace character. -/
def obrace : Char := Char.ofNat 123

/-- The closing brace character. -/
def cbrace : Char := Char.ofNat 125

/-- Decimal digit character for a value below ten. -/
def digitChar (n : Nat) : Char := Char.ofNat (48 + n)

/-- Decimal digit string of a natural number (most significant first). -/
def natDigits (n : Nat) : List Char :=
  if _h : n < 10 then [digitChar n]
  else natDigits (n / 10) ++ [digitChar (n % 10)]
decreasing_by exact Nat.div_lt_self (by omega) (by omega)

/-- `10 ^ (number of decimal digits of n)`, the weight factor used when the
digit string of `n` is appended to an accumulator. -/
def tenPow (n : Nat) : Nat :=
  if h : n < 10 then 10
  else tenPow (n / 10) * 10
decreasing_by exact Nat.div_lt_self (by omega) (by omega)

/-- The keyword literal `null`. -/
def litNull : List Char := ['n', 'u', 'l', 'l']

/-- The keyword literal `true`. -/
def litTrue : List Char := ['t', 'r', 'u', 'e']

/-- The keyword literal `false`. -/
def litFalse : List Char := ['f', 'a', 'l', 's', 'e']

mutual

/-- Serialization of a JSON value (compact form, no whitespace), used to
describe the claims' "complete JSON object" buffers. -/
def render : Json → List Char
  | .null => litNull
  | .bool true => litTrue
  | .bool false => litFalse
  | .num n => if n < 0 then '-' :: natDigits n.natAbs else natDigits n.natAbs
  | .str s => '"' :: s ++ ['"']
  | .arr es => '[' :: renderElems es ++ [']']
  | .obj ms => obrace :: renderMembers ms ++ [cbrace]

def renderElems : JsonList → List Char
  | .nil => []
  | .cons v .nil => render v
  | .cons v (.cons w tl) => render v ++ ',' :: renderElems (.cons w tl)

def renderMembers : JsonMembers → List Char
  | .nil => []
  | .cons k v .nil => '"' :: k ++ '"' :: ':' :: render v
  | .cons k v (.cons k2 w tl) =>
      ('"' :: k ++ '"' :: ':' :: render v) ++ ',' :: renderMembers (.cons k2 w tl)

end

mutual

/-- Strings (and keys) of the value contain neither the quote nor the
backslash character, so the escape-free model serialization is valid JSON. -/
def wfJson : Json → Bool
  | .null => true
  | .bool _ => true
  | .num _ => true
  | .str s => s.all fun c => c ≠ '"' && c ≠ '\\'
  | .arr es => wfJsonList es
  | .obj ms => wfJsonMembers ms

def wfJsonList : JsonList → Bool
  | .nil => true
  | .cons v tl => wfJson v && wfJsonList tl

def wfJsonMembers : JsonMembers → Bool
  | .nil => true
  | .cons k v tl =>
      (k.all fun c => c ≠ '"' && c ≠ '\\') && wfJson v && wfJsonMembers tl

end

mutual

/-- No string literal (or key) of the value contains a brace character;
the fragment on which the first-object brace scan of
`_parse_tool_arguments` is accurate. -/
def noBraceJson : Json → Bool
  | .null => true
  | .bool _ => true
  | .num _ => true
  | .str s => s.all fun c => c ≠ obrace && c ≠ cbrace
  | .arr es => noBraceJsonList es
  | .obj ms => noBraceJsonMembers ms

def noBraceJsonList : JsonList → Bool
  | .nil => true
  | .cons v tl => noBraceJson v && noBraceJsonList tl

def noBraceJsonMembers : JsonMembers → Bool
  | .nil => true
  | .cons k v tl =>
      (k.all fun c => c ≠ obrace && c ≠ cbrace) && noBraceJson v
        && noBraceJsonMembers tl

end

/-- JSON whitespace characters recognized by `json.loads`. -/
def jsonWs (c : Char) : Bool := c = ' ' || c = '\t' || c = '\n' || c = '\r'

/-- Drop leading JSON whitespace. -/
def skipWs (cs : List Char) : List Char := cs.dropWhile jsonWs

/-- The suffix begins with a non-digit (or is empty): appending it after a
rendered number does not extend the number's digit run. -/
def restNotDigit : List Char → Bool
  | [] => true
  | c :: _ => !c.isDigit

/-- Greedy decimal-digit consumption with an accumulator. -/
def parseDigitsLoop : List Char → Nat → Nat × List Char
  | c :: r, acc =>
      if c.isDigit then parseDigitsLoop r (acc * 10 + (c.toNat - 48))
      else (acc, c :: r)
  | [], acc => (acc, [])

/-- A (non-empty) run of decimal digits. -/
def parseDigits : List Char → Option (Nat × List Char)
  | c :: r => if c.isDigit then some (parseDigitsLoop (c :: r) 0) else none
  | [] => none

/-- A JSON number: optional minus sign followed by digits. -/
def parseNum : List Char → Option (Json × List Char)
  | [] => none
  | c :: r =>
      if c = '-' then
        match parseDigits r with
        | some (n, r1) => some (.num (-(n : Int)), r1)
        | none => none
      else
        match parseDigits (c :: r) with
        | some (n, r1) => some (.num (n : Int), r1)
        | none => none

/-- Body of a JSON string after the opening quote: characters up to the
closing quote (escape-free model). -/
def parseStrBody : List Char → Option (List Char × List Char)
  | [] => none
  | c :: r =>
      if c = '"' then some ([], r)
      else
        match parseStrBody r with
        | some (s, r1) => some (c :: s, r1)
        | none => none

mutual

/-- Fueled recursive-descent parser for a JSON value (model of the
grammar accepted by `json.loads` on whitespace-free input). -/
def parseVal : Nat → List Char → Option (Json × List Char)
  | 0, _ => none
  | _ + 1, [] => none
  | f + 1, c :: r =>
      if c = 'n' then
        match r with
        | 'u' :: 'l' :: 'l' :: r1 => some (.null, r1)
        | _ => none
      else if c = 't' then
        match r with
        | 'r' :: 'u' :: 'e' :: r1 => some (.bool true, r1)
        | _ => none
      else if c = 'f' then
        match r with
        | 'a' :: 'l' :: 's' :: 'e' :: r1 => some (.bool false, r1)
        | _ => none
      else if c = '"' then
        match parseStrBody r with
        | some (s, r1) => some (.str s, r1)
        | none => none
      else if c = '[' then
        match r with
        | [] => none
        | c2 :: r1 =>
          if c2 = ']' then some (.arr .nil, r1)
          else
            match parseElems f (c2 :: r1) with
            | some (es, r2) => some (.arr es, r2)
            | none => none
      else if c = obrace then
        match r with
        | c2 :: r1 =>
          if c2 = cbrace then some (.obj .nil, r1)
          else
            match parseMembers f (c2 :: r1) with
            | some (ms, r2) => some (.obj ms, r2)
            | none => none
        | [] => none
      else parseNum (c :: r)

/-- One-or-more comma-separated values terminated by `]`. -/
def parseElems : Nat → List Char → Option (JsonList × List Char)
  | 0, _ => none
  | f + 1, cs =>
      match parseVal f cs with
      | none => none
      | some (v, r) =>
        match r with
        | [] => none
        | c1 :: r1 =>
          if c1 = ',' then
            match parseElems f r1 with
            | some (es, r2) => some (.cons v es, r2)
            | none => none
          else if c1 = ']' then some (.cons v .nil, r1)
          else none

/-- One-or-more comma-separated `"key":value` members terminated by the
closing brace. -/
def parseMembers : Nat → List Char → Option (JsonMembers × List Char)
  | 0, _ => none
  | f + 1, cs =>
      match cs with
      | c :: r =>
        if c = '"' then
          match parseStrBody r with
          | none => none
          | some (k, r1) =>
            match r1 with
            | [] => none
            | c2 :: r2 =>
              if c2 = ':' then
                match parseVal f r2 with
                | none => none
                | some (v, r3) =>
                  match r3 with
                  | [] => none
                  | c4 :: r4 =>
                    if c4 = ',' then
                      match parseMembers f r4 with
                      | some (ms, r5) => some (.cons k v ms, r5)
                      | none => none
                    else if c4 = cbrace then some (.cons k v .nil, r4)
                    else none
              else none
        else none
      | [] => none

end

mutual

/-- An upper bound on the fuel `parseVal` consumes on the rendering of a
value (each parser level consumes one unit). -/
def needFuel : Json → Nat
  | .arr es => 1 + needFuelList es
  | .obj ms => 1 + needFuelMembers ms
  | _ => 1

def needFuelList : JsonList → Nat
  | .nil => 0
  | .cons v tl => 1 + needFuel v + needFuelList tl

def needFuelMembers : JsonMembers → Nat
  | .nil => 0
  | .cons _ v tl => 1 + needFuel v + needFuelMembers tl

end

/-- Model of Python's `json.loads`: strip surrounding whitespace, parse one
complete JSON value, require the input to be exhausted.  `none` models the
call raising `json.JSONDecodeError`. -/
def jsonLoads (cs : List Char) : Option Json :=
  let cs1 := skipWs cs
  match parseVal (cs1.length + 1) cs1 with
  | some (v, r) => if skipWs r = [] then some v else none
  | none => none

/-- The index scan of `_parse_tool_arguments` (chat_service.py:1296-1305):
running brace count over the characters; the first closing brace that
brings the count to exactly zero ends the first JSON object. -/
def braceScanAux : List Char → Int → Nat → Option Nat
  | [], _, _ => none
  | c :: rest, depth, i =>
      if c = obrace then braceScanAux rest (depth + 1) (i + 1)
      else if c = cbrace then
        if depth - 1 = 0 then some (i + 1)
        else braceScanAux rest (depth - 1) (i + 1)
      else braceScanAux rest depth (i + 1)

/-- `first_json_end` of `_parse_tool_arguments`; `none` models the sentinel
`-1` (no prefix with balanced-to-zero braces was found). -/
def firstJsonEnd (cs : List Char) : Option Nat := braceScanAux cs 0 0

/-- Embedding of `_parse_tool_arguments` (chat_service.py:1290-1323).
An empty buffer yields `{}`; otherwise the brace scan selects the first
candidate object slice, which is handed to `json.loads`; if no slice is
found the whole buffer is parsed; any parse failure (the `except` clause)
yields `{}`. -/
def parseToolArguments (cs : List Char) : Json :=
  if cs = [] then .obj .nil
  else
    match firstJsonEnd cs with
    | some k => (jsonLoads (cs.take k)).getD (.obj .nil)
    | none => (jsonLoads cs).getD (.obj .nil)

/-- Propositional guard used by the number roundtrip: the continuation of a
rendered number must not begin with a digit. -/
def numGuard : Json → List Char → Prop
  | .num _, rest => restNotDigit rest = true
  | _, _ => True

/-! ## Orchestrator data model

Embedding of the tool registry entries consumed by the orchestrator
(src/services/tool_service.py, src/services/chat_service.py).  A Python
registry entry is a dict; `callable(...)` checks are modelled by `Option`
(`some` = present and callable) and the behaviour of invoking the callable
is carried as data: `Except.error msg` models the call raising an
exception with message `msg`. -/

structure ToolSchema where
  name : Option String
  description : String
deriving DecidableEq

/-- One `ResponseChunk` yielded by a chunk-sequence handler
(src/utils/tool_utils.py): a `type` string and a `content` string.  A
dataclass instance is always truthy, so `if chunk:` in
`_execute_tool_function` never skips one. -/
structure RChunk where
  ctype : String
  content : String
deriving DecidableEq

/-- Behaviour of a capability's primary handler when invoked.  `plain v`
is a non-iterable return value (Python strings are iterable and would take
the generator branch of `_execute_tool_function`; the repository's tool
handlers are generators or non-string values).  `chunks cs` is a handler
returning a (sync or async) generator of `ResponseChunk`s.  `raises msg`
models the handler raising. -/
inductive ToolOutcome where
  | plain (v : String)
  | chunks (cs : List RChunk)
  | raises (msg : String)
deriving DecidableEq

structure Tool where
  enabled : Bool
  auto_tool : Bool
  one_time : Bool
  schema : ToolSchema
  fn : Option ToolOutcome
  condition : Option (Except String Bool)
  report : Option (Except String String)
  cleanup : Option (Except String Unit)

/-- `ToolService.get_enabled_tools` (tool_service.py:31-33). -/
def getEnabledTools (registry : List Tool) : List Tool :=
  registry.filter (·.enabled)

/-- The name a capability contributes to the availability prompt, `none`
when `build_tool_prompt` (tool_service.py:35-57) skips it: function not
callable, auto tool, falsy name, or one-time already used. -/
def promptIncludedName (tools_used : List String) (t : Tool) : Option String :=
  if t.fn.isNone then none
  else if t.auto_tool then none
  else
    match t.schema.name with
    | none => none
    | some n =>
      if n = "" then none
      else if t.one_time && tools_used.contains n then none
      else some n

/-- Name/line pairs of the capabilities listed by `build_tool_prompt`. -/
def promptEntries (tools_used : List String) (tools : List Tool) :
    List (String × String) :=
  tools.filterMap fun t =>
    (promptIncludedName tools_used t).map fun n =>
      (n, "- " ++ n ++ "(...): " ++ t.schema.description)

/-- The names enumerated in the availability prompt. -/
def promptNames (tools_used : List String) (tools : List Tool) : List String :=
  (promptEntries tools_used tools).map (·.1)

/-- `ToolService.build_tool_prompt` (tool_service.py:35-57). -/
def buildToolPrompt (tools_used : List String) (tools : List Tool) : String :=
  String.intercalate "\n"
    (["You have access to the following tool(s):"]
      ++ (promptEntries tools_used tools).map (·.2)
      ++ ["Use tool calls only when there is a good reason. If you have any tools which help you think or reason, use them often. When you have enough information to respond, stop making tool calls and respond to the user."])

/-- The line a capability contributes to the status dashboard, `none` when
it contributes nothing (`run_auto_tools_and_status`, tool_service.py:59-112):
skipped entirely when neither the function nor the reporter is callable;
a reporter exception produces the line `(Status error: <e>)`; a falsy
(empty) report value is dropped.  Auto-tool invocation on this path has no
observable effect in the model (its exceptions are printed and swallowed). -/
def statusLineOf (t : Tool) : Option String :=
  if t.fn.isNone && t.report.isNone then none
  else
    match t.report with
    | none => none
    | some (Except.ok v) => if v = "" then none else some v
    | some (Except.error e) => some ("(Status error: " ++ e ++ ")")

def statusLines (tools : List Tool) : List String :=
  tools.filterMap statusLineOf

/-- `ToolService.run_auto_tools_and_status` (tool_service.py:59-112); the
Python conditional expression binds as
`("\n---\n" + dashboard if status_lines else "(No status reported)") + "\n---"`. -/
def runAutoToolsAndStatus (tools : List Tool) : String :=
  (if (statusLines tools).isEmpty then "(No status reported)"
   else "\n---\n" ++ "<STATUS_DASHBOARD>\n"
     ++ String.intercalate "\n" (statusLines tools) ++ "\n</STATUS_DASHBOARD>")
  ++ "\n---"

/-- The OpenAI tools-array entry for one capability, `none` when
`_filter_available_tools` (chat_service.py:961-995) skips it: auto tool,
function not callable, one-time already used, condition falsy or raising. -/
def availEntry (tools_used : List String) (t : Tool) : Option ToolSchema :=
  if t.auto_tool then none
  else if t.fn.isNone then none
  else
    let nameUsed :=
      match t.schema.name with
      | some n => tools_used.contains n
      | none => false
    if t.one_time && nameUsed then none
    else
      match t.condition with
      | none => some t.schema
      | some (Except.ok b) => if b then some t.schema else none
      | some (Except.error _) => none

/-- `_filter_available_tools` (chat_service.py:961-995). -/
def filterAvailableTools (enabled_tools : List Tool) (tools_used : List String) :
    List ToolSchema :=
  enabled_tools.filterMap (availEntry tools_used)

/-- `_find_tool_by_name` (chat_service.py:998-1005). -/
def findToolByName (name : Option String) (registry : List Tool) : Option Tool :=
  registry.find? fun t => t.enabled && t.schema.name == name

/-- `len([name for name in tools_used if name])` of `_prepare_loop_iteration`
(chat_service.py:817): the count of truthy (non-empty) entries, with
multiplicity. -/
def numToolsUsed (tools_used : List String) : Nat :=
  (tools_used.filter fun n => !(n = "")).length

/-- A conversation message as the loop handles it: role, content (`none`
models Python `None`, as in assistant tool-call records) and the
`tool_calls` list of (id, function name, raw arguments) triples. -/
structure Msg where
  role : String
  content : Option String
  toolCalls : List (String × Option String × String)
deriving DecidableEq

/-- Python `needle in hay` prefix test over characters. -/
def listStartsWith : List Char → List Char → Bool
  | [], _ => true
  | x :: xs, y :: ys => x = y && listStartsWith xs ys
  | _ :: _, [] => false

/-- Python substring test `needle in hay`. -/
def hasSubstring (needle : List Char) : List Char → Bool
  | [] => listStartsWith needle []
  | c :: rest => listStartsWith needle (c :: rest) || hasSubstring needle rest

def strContains (hay needle : String) : Bool :=
  hasSubstring needle.data hay.data

/-- Result bundle of `_prepare_loop_iteration` (chat_service.py:801-855). -/
structure PrepResult where
  messagesForApi : List Msg
  availableTools : List ToolSchema
  numUsed : Nat
  toolPromptIncluded : Bool

/-- `_prepare_loop_iteration` (chat_service.py:801-855): strip prior
status/availability system messages by content signature, prepend the
fresh status block, and prepend the availability prompt and populate the
tools array only while the used count is below the limit. -/
def prepareLoopIteration (registry : List Tool) (toolsLimit : Nat)
    (base : List Msg) (used : List String) : PrepResult :=
  let enabled := getEnabledTools registry
  let num := numToolsUsed used
  let statusSection := runAutoToolsAndStatus enabled
  let stripped := base.filter fun m =>
    !(m.role == "system"
      && (strContains (m.content.getD "") "tool(s):"
          || strContains (m.content.getD "") "<STATUS_DASHBOARD>"))
  let withStatus : List Msg :=
    { role := "system", content := some statusSection, toolCalls := [] } :: stripped
  if num < toolsLimit then
    { messagesForApi :=
        { role := "system", content := some (buildToolPrompt used enabled),
          toolCalls := [] } :: withStatus
      availableTools := filterAvailableTools enabled used
      numUsed := num
      toolPromptIncluded := true }
  else
    { messagesForApi := withStatus, availableTools := [], numUsed := num,
      toolPromptIncluded := false }

/-- `_should_continue_loop` (chat_service.py:922-958): the loop continues
exactly when a tool call was detected; budget, interruption flag, name,
arguments and history only feed debug prints. -/
def shouldContinueLoop (toolCallDetected : Bool) (_streamingInterrupted : Bool)
    (_toolCallName : Option String) (_collectedArgs : String)
    (_base : List Msg) : Bool :=
  toolCallDetected

/-! ### Placeholder substitution and the API-request copy (C9)

`replace_message_placeholders` (chat_service.py:41-61) reads the user name
and persona names from external stores; it is modelled as an opaque
`subst : String → String` parameter.  `_prepare_api_request`
(chat_service.py:858-919) is modelled over an explicit message heap so
that the claim "stored history is never mutated" is about object
identity, as in Python: `message.copy()` allocates a fresh cell, and
messages without truthy content are passed through by reference. -/

structure MsgHeap where
  cells : List Msg
deriving DecidableEq

def heapGet (h : MsgHeap) (r : Nat) : Option Msg := h.cells.get? r

def heapAlloc (h : MsgHeap) (m : Msg) : MsgHeap × Nat :=
  ({ cells := h.cells ++ [m] }, h.cells.length)

/-- One iteration of the `for message in messages_for_api` loop of
`_prepare_api_request` (chat_service.py:888-898). -/
def prepareApiRequestStep (subst : String → String) :
    MsgHeap × List Nat → Nat → MsgHeap × List Nat := fun acc r =>
  let (h, out) := acc
  match heapGet h r with
  | some m =>
    match m.content with
    | some c =>
      if c = "" then (h, out ++ [r])
      else
        let a := heapAlloc h { m with content := some (subst c) }
        (a.1, out ++ [a.2])
    | none => (h, out ++ [r])
  | none => (h, out ++ [r])

/-- The message-processing loop of `_prepare_api_request`
(chat_service.py:888-898): builds `processed_messages` from copies,
leaving every existing heap cell untouched. -/
def prepareApiRequestRefs (subst : String → String) (h : MsgHeap)
    (refs : List Nat) : MsgHeap × List Nat :=
  refs.foldl (prepareApiRequestStep subst) (h, [])

/-! ### Stream decoding and the inference loop -/

/-- An orchestration event as yielded by the loop's async generators
(the dict events of chat_service.py, keyed by their `type` field). -/
inductive Event where
  | start
  | chunk (content : String)
  | systemMessageStart
  | systemChunk (content : String)
  | systemComplete (content : String)
  | contextChunk (content : String)
  | contextComplete (content : String)
  | assistantComplete (content : String)
  | complete (content : String)
  | error (message : String)
deriving DecidableEq

/-- One entry of a chunk's `delta.tool_calls` list. -/
structure ToolCallDelta where
  hasFunction : Bool
  fnName : Option String
  fnArguments : Option String
deriving DecidableEq

/-- One streamed completion chunk (`chunk.choices[0]`). -/
structure StreamChunk where
  content : Option String
  toolCalls : List ToolCallDelta
  finish : Option String
deriving DecidableEq

/-- How the provider's chunk iterator ends: exhausted normally, raising an
`Exception` (transport failure, caught by `except Exception`), or raising
`CancelledError` (external task cancellation, which `except Exception`
does not catch). -/
inductive StreamEnding
  | normal
  | raiseExc (msg : String)
  | cancel
deriving DecidableEq

structure ProviderStream where
  chunks : List StreamChunk
  ending : StreamEnding
deriving DecidableEq

/-- `_handle_tool_call_streaming` (chat_service.py:1144-1166): an empty
`tool_calls` list is falsy and leaves the state unchanged; otherwise the
detected flag is set, the function name is captured on first occurrence
only, and truthy argument fragments are concatenated in delivery order. -/
def handleToolCallStreaming (tcs : List ToolCallDelta) (detected : Bool)
    (name : Option String) (args : String) : Bool × Option String × String :=
  if tcs.isEmpty then (detected, name, args)
  else
    let r := tcs.foldl
      (fun (acc : Option String × String) tc =>
        if tc.hasFunction then
          let nm := if acc.1.isNone then tc.fnName else acc.1
          let ag :=
            match tc.fnArguments with
            | some s => if s = "" then acc.2 else acc.2 ++ s
            | none => acc.2
          (nm, ag)
        else acc)
      (name, args)
    (true, r.1, r.2)

/-- Terminal result bundle of `_execute_tool_function`
(chat_service.py:1326-1484).  `ResponseContext` is created there but never
handed to the tool (the handler receives only the parsed arguments and,
when supported, `metadata`), so in this repository its staged content is
always empty; the corresponding branches are dead and the model carries
that as constants. -/
structure ExecOut where
  toolResult : String
  streamed : List String
  sysMsgs : List String
  ctxMsgs : List String
  finalContent : String
deriving DecidableEq

structure ChunkLoopState where
  finalContent : String
  streamed : List String
  sysGen : List String
  ctxGen : List String
deriving DecidableEq

/-- The generator-iteration loop of `_execute_tool_function`
(chat_service.py:1396-1429): `system` chunks stream a SystemDelta and
accumulate; `context` chunks analogously; anything else is an assistant
chunk, substituted, streamed as a ContentDelta and accumulated. -/
def execChunksLoop (subst : String → String) :
    List RChunk → ChunkLoopState → List Event × ChunkLoopState
  | [], st => ([], st)
  | ch :: rest, st =>
    if ch.ctype = "system" then
      let r := execChunksLoop subst rest
        { st with sysGen := st.sysGen ++ [ch.content] }
      (Event.systemChunk ch.content :: r.1, r.2)
    else if ch.ctype = "context" then
      let r := execChunksLoop subst rest
        { st with ctxGen := st.ctxGen ++ [ch.content] }
      (Event.contextChunk ch.content :: r.1, r.2)
    else
      let processed := subst ch.content
      let r := execChunksLoop subst rest
        { st with finalContent := st.finalContent ++ processed,
                  streamed := st.streamed ++ [processed] }
      (Event.chunk processed :: r.1, r.2)

/-- `_execute_tool_function` (chat_service.py:1326-1484).  `Except.error`
models the handler's exception propagating out of the function. -/
def executeToolFunction (subst : String → String) (outcome : ToolOutcome)
    (finalContent : String) : Except String (List Event × ExecOut) :=
  match outcome with
  | .raises msg => .error msg
  | .plain v =>
    -- non-iterable result; response_context staged content is always empty,
    -- so no system flush, no streamed chunks, no appended final content
    .ok ([], { toolResult := v, streamed := [], sysMsgs := [], ctxMsgs := [],
               finalContent := finalContent })
  | .chunks cs =>
    let r := execChunksLoop subst cs
      { finalContent := finalContent, streamed := [], sysGen := [], ctxGen := [] }
    let st := r.2
    let sysPart :=
      if st.sysGen.isEmpty then ([], [])
      else
        let combined := subst (String.join st.sysGen)
        ([Event.systemComplete combined], [combined])
    let ctxPart :=
      if st.ctxGen.isEmpty then ([], [])
      else
        let combined := subst (String.join st.ctxGen)
        ([Event.contextComplete combined], [combined])
    .ok (r.1 ++ sysPart.1 ++ ctxPart.1,
      { toolResult := "Generator tool completed", streamed := st.streamed,
        sysMsgs := sysPart.2, ctxMsgs := ctxPart.2,
        finalContent := st.finalContent })

/-- Result of processing one provider stream
(`_process_streaming_response`, chat_service.py:1008-1141). -/
inductive StreamResult where
  | noToolCall (detected : Bool) (interrupted : Bool) (name : Option String)
      (collectedArgs : String) (finalContent : String)
  | toolCall (name : Option String) (args : Json) (out : ExecOut)
  | failedRun (msg : String)
  | cancelledRun
deriving DecidableEq

inductive StreamStep where
  | finished (detected : Bool) (interrupted : Bool) (name : Option String)
      (collectedArgs : String) (finalContent : String)
  | fired (name : Option String) (args : Json) (out : ExecOut)
  | failed (msg : String)
deriving DecidableEq

/-- The `async for chunk in response` loop of `_process_streaming_response`
(chat_service.py:1029-1113).  A chunk with truthy content streams a
ContentDelta (only while no tool call is detected) and skips the
finish-reason handling via `continue`; otherwise tool-call deltas are
folded in, an unexpected terminal finish reason marks the stream
interrupted, and `finish_reason == "tool_calls"` parses the frozen buffer,
resolves the capability and executes it, returning without consuming the
remaining chunks. -/
def processChunksLoop (subst : String → String) (registry : List Tool) :
    List StreamChunk → Bool → Option String → String → Bool → String →
    List Event × StreamStep
  | [], detected, name, args, interrupted, content =>
    ([], .finished detected interrupted name args content)
  | ch :: rest, detected, name, args, interrupted, content =>
    let contentTruthy :=
      match ch.content with
      | some c => !(c = "")
      | none => false
    if contentTruthy then
      let c := ch.content.getD ""
      if detected then
        processChunksLoop subst registry rest detected name args interrupted content
      else
        let r := processChunksLoop subst registry rest detected name args
          interrupted (content ++ c)
        (Event.chunk c :: r.1, r.2)
    else
      let s := handleToolCallStreaming ch.toolCalls detected name args
      let detected2 := s.1
      let name2 := s.2.1
      let args2 := s.2.2
      let interrupted2 :=
        if ch.finish.isSome && detected2 && !(ch.finish == some "tool_calls")
        then true else interrupted
      if detected2 && ch.finish == some "tool_calls" then
        let parsed := parseToolArguments args2.data
        match findToolByName name2 registry with
        | none =>
          ([], .fired name2 parsed
            { toolResult := "Unknown function: "
                ++ (match name2 with | some n => n | none => "None"),
              streamed := [], sysMsgs := [], ctxMsgs := [],
              finalContent := content })
        | some t =>
          match t.fn with
          | none => ([], .failed "'NoneType' object is not callable")
          | some outcome =>
            match executeToolFunction subst outcome content with
            | .error m => ([], .failed m)
            | .ok eo => (eo.1, .fired name2 parsed eo.2)
      else
        processChunksLoop subst registry rest detected2 name2 args2 interrupted2 content

/-- `_process_streaming_response` (chat_service.py:1008-1141) over one
scripted provider stream: the chunk loop runs first; if it fired or failed
the stream's own ending is never reached (the Python function returned or
raised); otherwise the ending decides between the streaming-complete
summary, a transport exception re-raised to the caller, and external
cancellation (which `except Exception` does not intercept). -/
def processStream (subst : String → String) (registry : List Tool)
    (s : ProviderStream) (finalContent : String) : List Event × StreamResult :=
  let r := processChunksLoop subst registry s.chunks false none "" false
    finalContent
  match r.2 with
  | .fired name args out => (r.1, .toolCall name args out)
  | .failed m => (r.1, .failedRun m)
  | .finished detected interrupted name args content =>
    match s.ending with
    | .normal => (r.1, .noToolCall detected interrupted name args content)
    | .raiseExc m => (r.1, .failedRun m)
    | .cancel => (r.1, .cancelledRun)

/-- `_process_tool_call_completion` (chat_service.py:1169-1287): appends
the capability name (or `""`) to the usage list, strips stale
"Tool Call(s) Made:" system messages, appends the synthetic assistant
tool-call record, then the combined (re-substituted) system text as a
system turn and the combined context text as a tool turn.  The recorded
`arguments` string is the caller's loop-scope `collected_args`, which is
still `""` when this runs (`inference_loop` resets it each iteration and
only `streaming_complete` events update it).  `response_context` staged
content is always empty, so no further system turn is appended. -/
def applyToolCallCompletion (subst : String → String) (base : List Msg)
    (used : List String) (name : Option String) (out : ExecOut) :
    List Msg × List String :=
  let used2 := used ++ [name.getD ""]
  let cleaned := base.filter fun m =>
    !(m.role == "system"
      && listStartsWith "Tool Call(s) Made:".data (m.content.getD "").data)
  let callId := "call_" ++ toString used2.length
  let withCall := cleaned ++
    [{ role := "assistant", content := none, toolCalls := [(callId, name, "")] }]
  let withSys :=
    if out.sysMsgs.isEmpty then withCall
    else withCall ++
      [{ role := "system", content := some (subst (String.join out.sysMsgs)),
         toolCalls := [] }]
  let withCtx :=
    if out.ctxMsgs.isEmpty then withSys
    else withSys ++
      [{ role := "tool", content := some (subst (String.join out.ctxMsgs)),
         toolCalls := [] }]
  (withCtx, used2)

/-- Per-iteration observation recorded for the invariants: the usage list
at iteration entry, the names listed by the availability prompt (empty
when the prompt is omitted) and the names in the tools array. -/
structure IterRecord where
  usedAtEntry : List String
  promptListedNames : List String
  promptIncluded : Bool
  availableNames : List String
deriving DecidableEq

def iterRecordOf (registry : List Tool) (limit : Nat) (base : List Msg)
    (used : List String) : IterRecord :=
  let prep := prepareLoopIteration registry limit base used
  { usedAtEntry := used
    promptListedNames :=
      if numToolsUsed used < limit then promptNames used (getEnabledTools registry)
      else []
    promptIncluded := prep.toolPromptIncluded
    availableNames := prep.availableTools.filterMap (·.name) }

inductive RunEnd where
  | completed (finalContent : String)
  | errored (msg : String)
  | cancelled
  | outOfScript
deriving DecidableEq

/-- The `while True` body of `inference_loop` (chat_service.py:1525-1621),
driven by a script of provider streams (one per completion request; an
exhausted script models the run being cut off while awaiting the next
request).  Returns the events yielded to the caller (internal
`tool_call_complete`/`streaming_complete` events are consumed, everything
else is forwarded), the per-iteration trace, and how the run ended. -/
def runLoop (subst : String → String) (registry : List Tool) (limit : Nat) :
    List ProviderStream → List Msg → List String → String →
    List Event × List IterRecord × RunEnd
  | [], _base, _used, _fc => ([], [], .outOfScript)
  | s :: restScript, base, used, fc =>
    let record := iterRecordOf registry limit base used
    let pr := processStream subst registry s fc
    match pr.2 with
    | .failedRun m => (pr.1 ++ [Event.error m], [record], .errored m)
    | .cancelledRun => (pr.1, [record], .cancelled)
    | .noToolCall detected _int _nm _ca fc2 =>
      if shouldContinueLoop detected _int _nm _ca base then
        let r := runLoop subst registry limit restScript base used fc2
        (pr.1 ++ r.1, record :: r.2.1, r.2.2)
      else
        (pr.1 ++ [Event.complete fc2], [record], .completed fc2)
    | .toolCall name _args out =>
      let bu := applyToolCallCompletion subst base used name out
      let r := runLoop subst registry limit restScript bu.1 bu.2 out.finalContent
      (pr.1 ++ r.1, record :: r.2.1, r.2.2)

/-- The `finally` block of `inference_loop` (chat_service.py:1636-1657):
for every enabled tool with a callable `cleanup_function`, the hook runs
inside its own `try`, so the record lists each such tool exactly once
(second component: whether the hook succeeded). -/
def runCleanups (tools : List Tool) : List (Option String × Bool) :=
  tools.filterMap fun t =>
    match t.cleanup with
    | none => none
    | some (Except.ok _) => some (t.schema.name, true)
    | some (Except.error _) => some (t.schema.name, false)

structure RunResult where
  events : List Event
  trace : List IterRecord
  ending : RunEnd
  cleanups : List (Option String × Bool)
deriving DecidableEq

/-- `inference_loop` (chat_service.py:1487-1657): yield Start, run the
loop; a caught exception becomes a single Error event (CancelledError is
not caught); the `finally` block runs the cleanup hooks on every path. -/
def inferenceRun (subst : String → String) (registry : List Tool) (limit : Nat)
    (script : List ProviderStream) (base : List Msg) : RunResult :=
  let r := runLoop subst registry limit script base [] ""
  { events := Event.start :: r.1, trace := r.2.1, ending := r.2.2,
    cleanups := runCleanups (getEnabledTools registry) }

/-- The content deltas of a chunk list that Python truthiness admits
(`if getattr(delta, "content", None):` — present and non-empty). -/
def truthyContents (chunks : List StreamChunk) : List String :=
  chunks.filterMap fun ch =>
    match ch.content with
    | some c => if c = "" then none else some c
    | none => none

def isErrorEvent : Event → Bool
  | .error _ => true
  | _ => false

def isSystemCompleteEvent : Event → Bool
  | .systemComplete _ => true
  | _ => false

/-- The per-message transformation of `_prepare_api_request`: messages with
truthy content are copied with substituted content, others pass through. -/
def substMsg (subst : String → String) (m : Msg) : Msg :=
  match m.content with
  | some c => if c = "" then m else { m with content := some (subst c) }
  | none => m

/-- A minimal callable, unconditional, non-auto, non-one-time capability
named "a", used to exhibit concrete loop behaviour. -/
def sampleBudgetTool : Tool :=
  { enabled := true, auto_tool := false, one_time := false,
    schema := { name := some "a", description := "" },
    fn := some (.plain ""), condition := none, report := none,
    cleanup := none }

/-- A one-time capability named "roll", for concrete runs. -/
def sampleOneTimeTool : Tool :=
  { enabled := true, auto_tool := false, one_time := true,
    schema := { name := some "roll", description := "roll dice" },
    fn := some (.plain "4"), condition := none, report := none,
    cleanup := some (.ok ()) }

/-- A provider stream that requests `roll({})` and finishes with
`tool_calls`. -/
def sampleToolCallStream : ProviderStream :=
  { chunks := [
      { content := none,
        toolCalls := [{ hasFunction := true, fnName := some "roll",
                        fnArguments := some (String.mk [obrace, cbrace]) }],
        finish := some "tool_calls" }],
    ending := .normal }

/-- A content-only provider stream ending normally. -/
def sampleContentStream : ProviderStream :=
  { chunks := [
      { content := some "Hel", toolCalls := [], finish := none },
      { content := some "lo", toolCalls := [], finish := none },
      { content := none, toolCalls := [], finish := some "stop" }],
    ending := .normal }

/-- The iteration-2 trace record of the sample one-time-tool run. -/
def sampleIterRecord : IterRecord :=
  { usedAtEntry := ["roll"], promptListedNames := [],
    promptIncluded := true, availableNames := [] }

/-- A one-message heap for exercising the API-request copy loop. -/
def sampleHeap : MsgHeap :=
  { cells := [{ role := "user", content := some "hi", toolCalls := [] }] }

/-! ## Theorems: JSON parser/serializer facts -/

theorem digitChar_isDigit {d : Nat} (hd : d < 10) : (digitChar d).isDigit = true := by
  interval_cases d <;> decide

theorem digitChar_sub {d : Nat} (hd : d < 10) : (digitChar d).toNat - 48 = d := by
  interval_cases d <;> decide

theorem char_isDigit_ne {c x : Char} (hc : c.isDigit = true) (hx : x.isDigit = false) :
    ¬(c = x) := by
  intro he
  rw [he, hx] at hc
  cases hc

theorem natDigits_head (n : Nat) : ∃ c t, natDigits n = c :: t ∧ c.isDigit = true := by
  induction n using Nat.strong_induction_on with
  | _ n ih =>
    rw [natDigits]
    by_cases h : n < 10
    · exact ⟨digitChar n, [], by simp [h], digitChar_isDigit h⟩
    · obtain ⟨c, t, he, hc⟩ := ih (n / 10) (Nat.div_lt_self (by omega) (by omega))
      exact ⟨c, t ++ [digitChar (n % 10)], by simp [h, he], hc⟩

theorem natDigits_ne_nil (n : Nat) : natDigits n ≠ [] := by
  obtain ⟨c, t, he, _⟩ := natDigits_head n
  simp [he]

theorem parseDigitsLoop_append (n : Nat) : ∀ acc rest,
    parseDigitsLoop (natDigits n ++ rest) acc
      = parseDigitsLoop rest (acc * tenPow n + n) := by
  induction n using Nat.strong_induction_on with
  | _ n ih =>
    intro acc rest
    by_cases h : n < 10
    · rw [natDigits, tenPow]
      simp [h, parseDigitsLoop, digitChar_isDigit h, digitChar_sub h]
    · rw [natDigits, tenPow]
      simp only [h, dite_false]
      rw [List.append_assoc, ih (n / 10) (Nat.div_lt_self (by omega) (by omega))]
      have h10 : n % 10 < 10 := Nat.mod_lt _ (by omega)
      simp [parseDigitsLoop, digitChar_isDigit h10, digitChar_sub h10]
      have hdm : n / 10 * 10 + n % 10 = n := by omega
      have harith : (acc * tenPow (n / 10) + n / 10) * 10 + (n % 10)
          = acc * (tenPow (n / 10) * 10) + n := by
        calc (acc * tenPow (n / 10) + n / 10) * 10 + (n % 10)
            = acc * (tenPow (n / 10) * 10) + (n / 10 * 10 + n % 10) := by ring
          _ = acc * (tenPow (n / 10) * 10) + n := by rw [hdm]
      rw [harith]

theorem parseDigitsLoop_stop {rest : List Char} (h : restNotDigit rest = true) (a : Nat) :
    parseDigitsLoop rest a = (a, rest) := by
  cases rest with
  | nil => rfl
  | cons c r =>
    simp only [restNotDigit, Bool.not_eq_true'] at h
    simp [parseDigitsLoop, h]

theorem parseDigits_natDigits (n : Nat) {rest : List Char}
    (h : restNotDigit rest = true) :
    parseDigits (natDigits n ++ rest) = some (n, rest) := by
  obtain ⟨c, t, he, hc⟩ := natDigits_head n
  rw [he, List.cons_append]
  simp only [parseDigits, hc, if_true]
  rw [← List.cons_append, ← he, parseDigitsLoop_append, parseDigitsLoop_stop h]
  simp

theorem parseStrBody_append {s : List Char} (h : ∀ c ∈ s, ¬(c = '"')) (rest : List Char) :
    parseStrBody (s ++ '"' :: rest) = some (s, rest) := by
  induction s with
  | nil => simp [parseStrBody]
  | cons c t ih =>
    have hc : ¬(c = '"') := h c (by simp)
    simp [parseStrBody, hc, ih (fun c hc => h c (by simp [hc]))]

theorem render_head_ne (v : Json) (x : Char)
    (hx : x.isDigit = false ∧ ¬(x = 'n') ∧ ¬(x = 't') ∧ ¬(x = 'f')
      ∧ ¬(x = '"') ∧ ¬(x = '[') ∧ ¬(x = obrace) ∧ ¬(x = '-')) :
    ∃ c t, render v = c :: t ∧ ¬(c = x) := by
  obtain ⟨hxd, hn, ht, hf, hq, hb, ho, hm⟩ := hx
  cases v with
  | null => exact ⟨'n', _, rfl, fun he => hn he.symm⟩
  | bool b => cases b with
    | true => exact ⟨'t', _, rfl, fun he => ht he.symm⟩
    | false => exact ⟨'f', _, rfl, fun he => hf he.symm⟩
  | num n =>
    by_cases hlt : n < 0
    · exact ⟨'-', natDigits n.natAbs, by simp [render, hlt], fun he => hm he.symm⟩
    · obtain ⟨c, t, he, hc⟩ := natDigits_head n.natAbs
      exact ⟨c, t, by simp [render, hlt, he], char_isDigit_ne hc hxd⟩
  | str s => exact ⟨'"', s ++ ['"'], rfl, fun he => hq he.symm⟩
  | arr es =>
    exact ⟨'[', renderElems es ++ [']'], by simp [render], fun he => hb he.symm⟩
  | obj ms =>
    exact ⟨obrace, renderMembers ms ++ [cbrace], by simp [render], fun he => ho he.symm⟩

theorem needFuel_pos (v : Json) : 1 ≤ needFuel v := by
  cases v <;> simp [needFuel]

theorem numGuard_cons {c : Char} (v : Json) (rest : List Char)
    (hc : c.isDigit = false) : numGuard v (c :: rest) := by
  cases v <;> simp [numGuard, restNotDigit, hc]

theorem numGuard_nil (v : Json) : numGuard v [] := by
  cases v <;> simp [numGuard, restNotDigit]

/-- Parser/serializer roundtrip, all three syntactic classes at once, by
induction on the parser fuel. -/
theorem parse_render_all : ∀ f : Nat,
    (∀ v rest, wfJson v = true → numGuard v rest → needFuel v ≤ f →
      parseVal f (render v ++ rest) = some (v, rest))
    ∧ (∀ v tl rest, wfJson v = true → wfJsonList tl = true →
        needFuelList (.cons v tl) ≤ f →
        parseElems f (renderElems (.cons v tl) ++ ']' :: rest)
          = some (.cons v tl, rest))
    ∧ (∀ k v tl rest, (k.all fun c => c ≠ '"' && c ≠ '\\') = true →
        wfJson v = true → wfJsonMembers tl = true →
        needFuelMembers (.cons k v tl) ≤ f →
        parseMembers f (renderMembers (.cons k v tl) ++ cbrace :: rest)
          = some (.cons k v tl, rest)) := by
  intro f
  induction f with
  | zero =>
    refine ⟨fun v rest _ _ hf => absurd hf (by have := needFuel_pos v; omega),
            fun v tl rest _ _ hf => absurd hf (by simp [needFuelList]),
            fun k v tl rest _ _ _ hf => absurd hf (by simp [needFuelMembers])⟩
  | succ g ih =>
    obtain ⟨ihv, ihe, ihm⟩ := ih
    refine ⟨?_, ?_, ?_⟩
    · -- parseVal
      intro v rest hwf hguard hf
      cases v with
      | null => simp [render, litNull, parseVal]
      | bool b => cases b <;> simp [render, litTrue, litFalse, parseVal]
      | num n =>
        have hgd : restNotDigit rest = true := hguard
        by_cases hlt : n < 0
        · have hrend : render (.num n) = '-' :: natDigits n.natAbs := by
            simp [render, hlt]
          rw [hrend, List.cons_append]
          have hcast : (-(n.natAbs : Int)) = n := by omega
          simp only [parseVal, parseNum]
          rw [parseDigits_natDigits _ hgd]
          exact congrArg (fun z => some (Json.num z, rest)) hcast
        · obtain ⟨c, t, he, hc⟩ := natDigits_head n.natAbs
          have hrend : render (.num n) = c :: t := by simp [render, hlt, he]
          rw [hrend, List.cons_append]
          have hcast : ((n.natAbs : Int)) = n := by omega
          simp only [parseVal]
          rw [if_neg (char_isDigit_ne hc (by decide)),
              if_neg (char_isDigit_ne hc (by decide)),
              if_neg (char_isDigit_ne hc (by decide)),
              if_neg (char_isDigit_ne hc (by decide)),
              if_neg (char_isDigit_ne hc (by decide)),
              if_neg (char_isDigit_ne hc (by decide))]
          simp only [parseNum]
          rw [if_neg (char_isDigit_ne hc (by decide))]
          rw [← List.cons_append, ← he, parseDigits_natDigits _ hgd]
          exact congrArg (fun z => some (Json.num z, rest)) hcast
      | str s =>
        have hs : ∀ c ∈ s, ¬(c = '"') := by
          simp only [wfJson, List.all_eq_true, Bool.and_eq_true,
            decide_eq_true_eq] at hwf
          exact fun c hcm => (hwf c hcm).1
        have hrend : render (.str s) ++ rest = '"' :: (s ++ '"' :: rest) := by
          simp [render]
        rw [hrend]
        simp only [parseVal]
        rw [parseStrBody_append hs]
        rfl
      | arr es =>
        cases es with
        | nil =>
          have hrend : render (.arr .nil) ++ rest = '[' :: ']' :: rest := by
            simp [render, renderElems]
          rw [hrend]
          rfl
        | cons v tl =>
          simp only [wfJson, wfJsonList, Bool.and_eq_true] at hwf
          obtain ⟨hwfv, hwft⟩ := hwf
          have hfe : needFuelList (.cons v tl) ≤ g := by
            simp only [needFuel] at hf; omega
          obtain ⟨c, t2, heh, hcne⟩ := render_head_ne v ']' (by decide)
          have hT : ∃ T, renderElems (.cons v tl) = c :: T := by
            cases tl <;> simp [renderElems, heh]
          obtain ⟨T, hTe⟩ := hT
          have hinput : render (.arr (.cons v tl)) ++ rest
              = '[' :: c :: (T ++ ']' :: rest) := by
            simp [render, hTe, List.append_assoc]
          rw [hinput]
          simp only [parseVal]
          rw [if_neg hcne]
          have hback : c :: (T ++ ']' :: rest)
              = renderElems (.cons v tl) ++ ']' :: rest := by
            simp [hTe]
          rw [hback, ihe v tl rest hwfv hwft hfe]
          rfl
      | obj ms =>
        cases ms with
        | nil =>
          have hrend : render (.obj .nil) ++ rest = obrace :: cbrace :: rest := by
            simp [render, renderMembers]
          rw [hrend]
          rfl
        | cons k v tl =>
          simp only [wfJson, wfJsonMembers, Bool.and_eq_true] at hwf
          obtain ⟨⟨hk, hwfv⟩, hwft⟩ := hwf
          have hfm : needFuelMembers (.cons k v tl) ≤ g := by
            simp only [needFuel] at hf; omega
          have hT : ∃ T, renderMembers (.cons k v tl) = '"' :: T := by
            cases tl <;> simp [renderMembers]
          obtain ⟨T, hTe⟩ := hT
          have hinput : render (.obj (.cons k v tl)) ++ rest
              = obrace :: '"' :: (T ++ cbrace :: rest) := by
            simp [render, hTe, List.append_assoc]
          rw [hinput]
          simp only [parseVal]
          rw [if_neg (show ¬('"' = cbrace) by decide)]
          have hback : '"' :: (T ++ cbrace :: rest)
              = renderMembers (.cons k v tl) ++ cbrace :: rest := by
            simp [hTe]
          rw [hback, ihm k v tl rest hk hwfv hwft hfm]
          rfl
    · -- parseElems
      intro v tl rest hwfv hwft hfl
      cases tl with
      | nil =>
        have hfv : needFuel v ≤ g := by simp only [needFuelList] at hfl; omega
        simp only [renderElems, parseElems]
        rw [ihv v (']' :: rest) hwfv (numGuard_cons v rest (by decide)) hfv]
        rfl
      | cons w tl2 =>
        simp only [wfJsonList, Bool.and_eq_true] at hwft
        obtain ⟨hwfw, hwft2⟩ := hwft
        have hfv : needFuel v ≤ g := by simp only [needFuelList] at hfl; omega
        have hfl2 : needFuelList (.cons w tl2) ≤ g := by
          simp only [needFuelList] at hfl ⊢; omega
        have hrend : renderElems (.cons v (.cons w tl2)) ++ ']' :: rest
            = render v ++ ',' :: (renderElems (.cons w tl2) ++ ']' :: rest) := by
          simp [renderElems, List.append_assoc]
        rw [hrend]
        simp only [parseElems]
        rw [ihv v (',' :: (renderElems (.cons w tl2) ++ ']' :: rest)) hwfv
              (numGuard_cons v _ (by decide)) hfv]
        dsimp only
        rw [if_pos rfl, ihe w tl2 rest hwfw hwft2 hfl2]
    · -- parseMembers
      intro k v tl rest hk hwfv hwft hfm
      have hks : ∀ c ∈ k, ¬(c = '"') := by
        simp only [List.all_eq_true, Bool.and_eq_true, decide_eq_true_eq] at hk
        exact fun c hcm => (hk c hcm).1
      have hfv : needFuel v ≤ g := by simp only [needFuelMembers] at hfm; omega
      cases tl with
      | nil =>
        have hrend : renderMembers (.cons k v .nil) ++ cbrace :: rest
            = '"' :: (k ++ '"' :: (':' :: (render v ++ cbrace :: rest))) := by
          simp [renderMembers, List.append_assoc]
        rw [hrend]
        simp only [parseMembers]
        rw [parseStrBody_append hks]
        dsimp only
        rw [if_pos rfl, ihv v (cbrace :: rest) hwfv
              (numGuard_cons v rest (by decide)) hfv]
        dsimp only
        rw [if_neg (show ¬(cbrace = ',') by decide), if_pos rfl]
        simp
      | cons k2 w tl2 =>
        simp only [wfJsonMembers, Bool.and_eq_true] at hwft
        obtain ⟨⟨hk2, hwfw⟩, hwft2⟩ := hwft
        have hfm2 : needFuelMembers (.cons k2 w tl2) ≤ g := by
          simp only [needFuelMembers] at hfm ⊢; omega
        have hrend : renderMembers (.cons k v (.cons k2 w tl2)) ++ cbrace :: rest
            = '"' :: (k ++ '"' :: (':' :: (render v
                ++ ',' :: (renderMembers (.cons k2 w tl2) ++ cbrace :: rest)))) := by
          simp [renderMembers, List.append_assoc]
        rw [hrend]
        simp only [parseMembers]
        rw [parseStrBody_append hks]
        dsimp only
        rw [if_pos rfl, ihv v (',' :: (renderMembers (.cons k2 w tl2)
              ++ cbrace :: rest)) hwfv (numGuard_cons v _ (by decide)) hfv]
        dsimp only
        rw [if_pos rfl, ihm k2 w tl2 rest hk2 hwfw hwft2 hfm2]
        simp

theorem natDigits_all_digit (n : Nat) : ∀ c ∈ natDigits n, c.isDigit = true := by
  induction n using Nat.strong_induction_on with
  | _ n ih =>
    rw [natDigits]
    by_cases h : n < 10
    · simpa [h] using digitChar_isDigit h
    · simp only [h, dite_false]
      intro c hc
      rcases List.mem_append.mp hc with hc1 | hc2
      · exact ih (n / 10) (Nat.div_lt_self (by omega) (by omega)) c hc1
      · have : c = digitChar (n % 10) := by simpa using hc2
        rw [this]
        exact digitChar_isDigit (Nat.mod_lt _ (by omega))

mutual

theorem needFuel_le_render : ∀ v : Json, needFuel v ≤ (render v).length
  | .null => by simp [needFuel, render, litNull]
  | .bool b => by cases b <;> simp [needFuel, render, litTrue, litFalse]
  | .num n => by
      have h1 : 1 ≤ (natDigits n.natAbs).length :=
        List.length_pos.mpr (natDigits_ne_nil n.natAbs)
      by_cases hlt : n < 0 <;> simp [needFuel, render, hlt] <;> omega
  | .str s => by simp [needFuel, render]
  | .arr es => by
      have := needFuelList_le_renderElems es
      simp only [needFuel, render]
      simp
      omega
  | .obj ms => by
      have := needFuelMembers_le_renderMembers ms
      simp only [needFuel, render]
      simp
      omega

theorem needFuelList_le_renderElems : ∀ es : JsonList,
    needFuelList es ≤ (renderElems es).length + 1
  | .nil => by simp [needFuelList, renderElems]
  | .cons v .nil => by
      have := needFuel_le_render v
      simp only [needFuelList, needFuelList.eq_1, renderElems]
      omega
  | .cons v (.cons w tl) => by
      have h1 := needFuel_le_render v
      have h2 := needFuelList_le_renderElems (.cons w tl)
      simp only [needFuelList] at h2
      simp only [needFuelList, renderElems]
      simp
      omega

theorem needFuelMembers_le_renderMembers : ∀ ms : JsonMembers,
    needFuelMembers ms ≤ (renderMembers ms).length + 1
  | .nil => by simp [needFuelMembers, renderMembers]
  | .cons k v .nil => by
      have := needFuel_le_render v
      simp only [needFuelMembers, needFuelMembers.eq_1, renderMembers]
      simp
      omega
  | .cons k v (.cons k2 w tl) => by
      have h1 := needFuel_le_render v
      have h2 := needFuelMembers_le_renderMembers (.cons k2 w tl)
      simp only [needFuelMembers] at h2
      simp only [needFuelMembers, renderMembers]
      simp
      omega

end

theorem braceScanAux_other {c : Char} (h1 : ¬(c = obrace)) (h2 : ¬(c = cbrace))
    (rest : List Char) (d : Int) (i : Nat) :
    braceScanAux (c :: rest) d i = braceScanAux rest d (i + 1) := by
  conv_lhs => rw [braceScanAux]
  rw [if_neg h1, if_neg h2]

theorem braceScanAux_open (rest : List Char) (d : Int) (i : Nat) :
    braceScanAux (obrace :: rest) d i = braceScanAux rest (d + 1) (i + 1) := by
  conv_lhs => rw [braceScanAux]
  rw [if_pos rfl]

theorem braceScanAux_close (rest : List Char) (d : Int) (i : Nat) (hd : ¬(d - 1 = 0)) :
    braceScanAux (cbrace :: rest) d i = braceScanAux rest (d - 1) (i + 1) := by
  conv_lhs => rw [braceScanAux]
  rw [if_neg (by decide : ¬(cbrace = obrace)), if_pos rfl, if_neg hd]

theorem braceScanAux_close_done (rest : List Char) (d : Int) (i : Nat) (hd : d - 1 = 0) :
    braceScanAux (cbrace :: rest) d i = some (i + 1) := by
  conv_lhs => rw [braceScanAux]
  rw [if_neg (by decide : ¬(cbrace = obrace)), if_pos rfl, if_pos hd]

theorem scanPass {l : List Char} (hl : ∀ c ∈ l, ¬(c = obrace) ∧ ¬(c = cbrace)) :
    ∀ rest d i, braceScanAux (l ++ rest) d i = braceScanAux rest d (i + l.length) := by
  induction l with
  | nil => simp
  | cons c t ih =>
    intro rest d i
    have hc := hl c (by simp)
    rw [List.cons_append, braceScanAux_other hc.1 hc.2,
      ih (fun c h => hl c (by simp [h])) rest d (i + 1)]
    congr 1
    simp
    omega

mutual

theorem scanVal : ∀ v : Json, noBraceJson v = true → ∀ rest d i, 1 ≤ d →
    braceScanAux (render v ++ rest) d i = braceScanAux rest d (i + (render v).length)
  | .null, _ => fun rest d i _ => by
      rw [scanPass (by decide) rest d i]
  | .bool b, _ => fun rest d i _ => by
      cases b <;> rw [scanPass (by decide) rest d i]
  | .num n, _ => fun rest d i _ => by
      have hdig : ∀ c ∈ natDigits n.natAbs, ¬(c = obrace) ∧ ¬(c = cbrace) :=
        fun c hc => ⟨char_isDigit_ne (natDigits_all_digit _ c hc) (by decide),
          char_isDigit_ne (natDigits_all_digit _ c hc) (by decide)⟩
      by_cases hlt : n < 0
      · have hr : render (.num n) = '-' :: natDigits n.natAbs := by simp [render, hlt]
        rw [hr]
        refine scanPass ?_ rest d i
        intro c hc
        rcases List.mem_cons.mp hc with h | h
        · subst h; exact ⟨by decide, by decide⟩
        · exact hdig c h
      · have hr : render (.num n) = natDigits n.natAbs := by simp [render, hlt]
        rw [hr]
        exact scanPass hdig rest d i
  | .str s, hnb => fun rest d i _ => by
      have hs : ∀ c ∈ s, ¬(c = obrace) ∧ ¬(c = cbrace) := by
        simp only [noBraceJson, List.all_eq_true, Bool.and_eq_true,
          decide_eq_true_eq] at hnb
        exact hnb
      refine scanPass ?_ rest d i
      intro c hc
      rcases List.mem_cons.mp hc with h | h
      · subst h; exact ⟨by decide, by decide⟩
      · rcases List.mem_append.mp h with h1 | h2
        · exact hs c h1
        · have : c = '"' := by simpa using h2
          subst this; exact ⟨by decide, by decide⟩
  | .arr es, hnb => fun rest d i hd => by
      have hr : render (.arr es) ++ rest = '[' :: (renderElems es ++ (']' :: rest)) := by
        simp [render, List.append_assoc]
      rw [hr, braceScanAux_other (by decide) (by decide),
        scanElems es hnb (']' :: rest) d (i + 1) hd,
        braceScanAux_other (by decide) (by decide)]
      congr 1
      simp [render]
      omega
  | .obj ms, hnb => fun rest d i hd => by
      have hr : render (.obj ms) ++ rest
          = obrace :: (renderMembers ms ++ (cbrace :: rest)) := by
        simp [render, List.append_assoc]
      have hne : ¬((d : Int) + 1 - 1 = 0) := by omega
      rw [hr, braceScanAux_open,
        scanMembers ms hnb (cbrace :: rest) (d + 1) (i + 1) (by omega),
        braceScanAux_close _ _ _ hne]
      have hdd : (d : Int) + 1 - 1 = d := by omega
      rw [hdd]
      congr 1
      simp [render]
      omega

theorem scanElems : ∀ es : JsonList, noBraceJsonList es = true → ∀ rest d i, 1 ≤ d →
    braceScanAux (renderElems es ++ rest) d i
      = braceScanAux rest d (i + (renderElems es).length)
  | .nil, _ => fun rest d i _ => by simp [renderElems]
  | .cons v .nil, hnb => fun rest d i hd => by
      have hv : noBraceJson v = true := by
        simp only [noBraceJsonList, Bool.and_eq_true] at hnb
        exact hnb.1
      simp only [renderElems]
      exact scanVal v hv rest d i hd
  | .cons v (.cons w tl), hnb => fun rest d i hd => by
      simp only [noBraceJsonList, Bool.and_eq_true] at hnb
      have hr : renderElems (.cons v (.cons w tl)) ++ rest
          = render v ++ (',' :: (renderElems (.cons w tl) ++ rest)) := by
        simp [renderElems, List.append_assoc]
      rw [hr, scanVal v hnb.1 _ d i hd, braceScanAux_other (by decide) (by decide),
        scanElems (.cons w tl)
          (by simp [noBraceJsonList, hnb.2.1, hnb.2.2]) rest d _ hd]
      congr 1
      simp [renderElems]
      omega

theorem scanMembers : ∀ ms : JsonMembers, noBraceJsonMembers ms = true →
    ∀ rest d i, 1 ≤ d →
    braceScanAux (renderMembers ms ++ rest) d i
      = braceScanAux rest d (i + (renderMembers ms).length)
  | .nil, _ => fun rest d i _ => by simp [renderMembers]
  | .cons k v .nil, hnb => fun rest d i hd => by
      simp only [noBraceJsonMembers, Bool.and_eq_true] at hnb
      obtain ⟨⟨hk, hv⟩, _⟩ := hnb
      simp only [List.all_eq_true, Bool.and_eq_true, decide_eq_true_eq] at hk
      have hchars : ∀ c ∈ '"' :: k ++ ['"', ':'], ¬(c = obrace) ∧ ¬(c = cbrace) := by
        intro c hc
        rcases List.mem_cons.mp hc with h | h
        · subst h; exact ⟨by decide, by decide⟩
        · rcases List.mem_append.mp h with h1 | h2
          · exact hk c h1
          · rcases List.mem_cons.mp h2 with h3 | h4
            · subst h3; exact ⟨by decide, by decide⟩
            · have : c = ':' := by simpa using h4
              subst this; exact ⟨by decide, by decide⟩
      have hr : renderMembers (.cons k v .nil) ++ rest
          = ('"' :: k ++ ['"', ':']) ++ (render v ++ rest) := by
        simp [renderMembers, List.append_assoc]
      rw [hr, scanPass hchars _ d i, scanVal v hv rest d _ hd]
      congr 1
      simp [renderMembers]
      omega
  | .cons k v (.cons k2 w tl), hnb => fun rest d i hd => by
      simp only [noBraceJsonMembers, Bool.and_eq_true] at hnb
      obtain ⟨⟨hk, hv⟩, htl⟩ := hnb
      simp only [List.all_eq_true, Bool.and_eq_true, decide_eq_true_eq] at hk
      have hchars : ∀ c ∈ '"' :: k ++ ['"', ':'], ¬(c = obrace) ∧ ¬(c = cbrace) := by
        intro c hc
        rcases List.mem_cons.mp hc with h | h
        · subst h; exact ⟨by decide, by decide⟩
        · rcases List.mem_append.mp h with h1 | h2
          · exact hk c h1
          · rcases List.mem_cons.mp h2 with h3 | h4
            · subst h3; exact ⟨by decide, by decide⟩
            · have : c = ':' := by simpa using h4
              subst this; exact ⟨by decide, by decide⟩
      have hr : renderMembers (.cons k v (.cons k2 w tl)) ++ rest
          = ('"' :: k ++ ['"', ':'])
              ++ (render v ++ (',' :: (renderMembers (.cons k2 w tl) ++ rest))) := by
        simp [renderMembers, List.append_assoc]
      rw [hr, scanPass hchars _ d i, scanVal v hv _ d _ hd,
        braceScanAux_other (by decide) (by decide),
        scanMembers (.cons k2 w tl) (by simpa [noBraceJsonMembers] using htl) rest d _ hd]
      congr 1
      simp [renderMembers]
      omega

end

theorem firstJsonEnd_obj_prefix (ms : JsonMembers)
    (hnb : noBraceJsonMembers ms = true) (rest : List Char) :
    firstJsonEnd (render (.obj ms) ++ rest) = some (render (.obj ms)).length := by
  have hr : render (.obj ms) ++ rest
      = obrace :: (renderMembers ms ++ (cbrace :: rest)) := by
    simp [render, List.append_assoc]
  show braceScanAux (render (.obj ms) ++ rest) 0 0 = some (render (.obj ms)).length
  rw [hr, braceScanAux_open,
    scanMembers ms hnb (cbrace :: rest) (0 + 1) (0 + 1) (by norm_num),
    braceScanAux_close_done _ _ _ (by norm_num)]
  congr 1
  simp [render]
  omega

theorem jsonLoads_render_obj (ms : JsonMembers) (hwf : wfJson (.obj ms) = true) :
    jsonLoads (render (.obj ms)) = some (.obj ms) := by
  have hr : render (.obj ms) = obrace :: (renderMembers ms ++ [cbrace]) := by
    simp [render]
  have hskip : skipWs (render (.obj ms)) = render (.obj ms) := by
    rw [hr]
    show List.dropWhile jsonWs _ = _
    rw [List.dropWhile_cons, if_neg (by decide : ¬(jsonWs obrace = true))]
  have hb := needFuel_le_render (.obj ms)
  have h := (parse_render_all ((render (.obj ms)).length + 1)).1 (.obj ms) [] hwf
    (numGuard_nil _) (by omega)
  rw [List.append_nil] at h
  simp only [jsonLoads, hskip, h]
  simp [skipWs]

/-- C4 (amended): for two back-to-back complete JSON objects in which the
first object's string literals and keys contain no brace characters, the
argument parse of `_parse_tool_arguments` returns exactly the first
object; and whenever `json.loads` fails on the selected slice (or, absent
a brace-balanced prefix, on the whole buffer), the result is the empty
object rather than an exception. -/
theorem c4_duplicate_buffer_first_object :
    (∀ ms1 ms2 : JsonMembers,
      wfJson (.obj ms1) = true → noBraceJson (.obj ms1) = true →
      parseToolArguments (render (.obj ms1) ++ render (.obj ms2)) = .obj ms1)
    ∧ (∀ cs : List Char,
        (match firstJsonEnd cs with
         | some k => jsonLoads (cs.take k) = none
         | none => jsonLoads cs = none) →
        parseToolArguments cs = .obj .nil) := by
  constructor
  · intro ms1 ms2 hwf hnb
    have hnb1 : noBraceJsonMembers ms1 = true := hnb
    have hne : ¬(render (.obj ms1) ++ render (.obj ms2) = []) := by
      have : render (.obj ms1) ++ render (.obj ms2)
          = obrace :: (renderMembers ms1 ++ (cbrace :: render (.obj ms2))) := by
        simp [render, List.append_assoc]
      simp [this]
    have hfe := firstJsonEnd_obj_prefix ms1 hnb1 (render (.obj ms2))
    have htake : (render (.obj ms1) ++ render (.obj ms2)).take
        (render (.obj ms1)).length = render (.obj ms1) := by
      simpa using List.take_left (render (.obj ms1)) (render (.obj ms2))
    simp only [parseToolArguments, if_neg hne, hfe, htake,
      jsonLoads_render_obj ms1 hwf, Option.getD_some]
  · intro cs hfail
    by_cases hc : cs = []
    · subst hc; rfl
    · simp only [parseToolArguments, if_neg hc]
      revert hfail
      cases hfe : firstJsonEnd cs with
      | some k => intro hfail; simp only [hfe] at hfail ⊢; simp [hfail]
      | none => intro hfail; simp only [hfe] at hfail ⊢; simp [hfail]

/-- Witness: the amended C4 at `{"sides":"six"}{"k":"v"}` and at the
unparsable buffer `xy`. -/
theorem c4_duplicate_buffer_first_object_witness :
    parseToolArguments
        (render (.obj (.cons ['s','i','d','e','s'] (.str ['s','i','x']) .nil))
          ++ render (.obj (.cons ['k'] (.str ['v']) .nil)))
      = .obj (.cons ['s','i','d','e','s'] (.str ['s','i','x']) .nil)
    ∧ parseToolArguments ['x', 'y'] = .obj .nil := by
  constructor
  · exact c4_duplicate_buffer_first_object.1
      (.cons ['s','i','d','e','s'] (.str ['s','i','x']) .nil)
      (.cons ['k'] (.str ['v']) .nil) (by decide) (by decide)
  · exact c4_duplicate_buffer_first_object.2 ['x', 'y']
      (show jsonLoads ['x', 'y'] = none by decide)

/-- C4 counterexample: the buffer `{"a":"}"}{"b":"x"}` consists of two
back-to-back complete JSON objects, yet parsing yields the empty object,
not the first object, because the brace scan counts the brace inside the
string literal. -/
theorem c4_counterexample_brace_in_string :
    parseToolArguments
        (render (.obj (.cons ['a'] (.str [cbrace]) .nil))
          ++ render (.obj (.cons ['b'] (.str ['x']) .nil)))
      = .obj .nil
    ∧ ¬(Json.obj .nil = .obj (.cons ['a'] (.str [cbrace]) .nil)) := by
  exact ⟨by decide, by decide⟩

/-- C10: tool-argument parsing is total — every buffer yields either the
`json.loads` result of the scanned slice (or of the whole buffer when no
brace-balanced prefix exists) or the empty object — and the brace scan
counts braces inside string literals, so a single well-formed object whose
string value contains a closing brace parses to the empty object. -/
theorem c10_parse_total_and_brace_blind :
    (∀ cs : List Char,
      (∃ k, firstJsonEnd cs = some k
        ∧ jsonLoads (cs.take k) = some (parseToolArguments cs))
      ∨ (firstJsonEnd cs = none ∧ jsonLoads cs = some (parseToolArguments cs))
      ∨ parseToolArguments cs = .obj .nil)
    ∧ (∃ (cs : List Char) (ms : JsonMembers),
        jsonLoads cs = some (.obj ms) ∧ ¬(ms = .nil)
        ∧ parseToolArguments cs = .obj .nil) := by
  constructor
  · intro cs
    by_cases hc : cs = []
    · subst hc
      right; right; rfl
    · simp only [parseToolArguments, if_neg hc]
      cases hfe : firstJsonEnd cs with
      | some k =>
        cases hjl : jsonLoads (cs.take k) with
        | some v => left; exact ⟨k, rfl, by simp [hjl]⟩
        | none => right; right; simp [hjl]
      | none =>
        cases hjl : jsonLoads cs with
        | some v => right; left; exact ⟨rfl, by simp [hjl]⟩
        | none => right; right; simp [hjl]
  · refine ⟨[obrace, '"', 'a', '"', ':', '"', cbrace, '"', cbrace],
      .cons ['a'] (.str [cbrace]) .nil, by decide, by decide, by decide⟩

/-! ## Theorems: orchestrator -/

theorem execChunksLoop_all_system (subst : String → String) :
    ∀ (cs : List RChunk) (st : ChunkLoopState),
    (∀ ch ∈ cs, ch.ctype = "system") →
    execChunksLoop subst cs st
      = (cs.map fun ch => Event.systemChunk ch.content,
         { st with sysGen := st.sysGen ++ cs.map (·.content) }) := by
  intro cs
  induction cs with
  | nil => intro st _; simp [execChunksLoop]
  | cons ch rest ih =>
    intro st hall
    have h1 : ch.ctype = "system" := hall ch (by simp)
    simp only [execChunksLoop]
    rw [if_pos h1, ih _ (fun c hc => hall c (by simp [hc]))]
    simp [List.append_assoc]

/-- C8: a chunk-sequence handler that yields only `system`-kind chunks
produces the per-chunk SystemDelta events followed by exactly one
SystemComplete event whose text is the concatenation of the yielded
contents in yield order (assuming the concatenation is a fixpoint of
placeholder substitution, as the claim's equality requires). -/
theorem c8_system_only_handler_one_system_complete
    (subst : String → String) (cs : List RChunk) (fc : String)
    (hne : ¬(cs = [])) (hall : ∀ ch ∈ cs, ch.ctype = "system")
    (hfix : subst (String.join (cs.map (·.content)))
      = String.join (cs.map (·.content))) :
    executeToolFunction subst (.chunks cs) fc
      = .ok ((cs.map fun ch => Event.systemChunk ch.content)
            ++ [Event.systemComplete (String.join (cs.map (·.content)))],
          { toolResult := "Generator tool completed", streamed := [],
            sysMsgs := [String.join (cs.map (·.content))], ctxMsgs := [],
            finalContent := fc })
    ∧ ((cs.map fun ch => Event.systemChunk ch.content)
          ++ [Event.systemComplete (String.join (cs.map (·.content)))]).filter
            isSystemCompleteEvent
        = [Event.systemComplete (String.join (cs.map (·.content)))] := by
  constructor
  · simp only [executeToolFunction]
    rw [execChunksLoop_all_system subst cs _ hall]
    have hnonempty : ¬((([] : List String) ++ cs.map (·.content)).isEmpty = true) := by
      cases cs with
      | nil => exact absurd rfl hne
      | cons a b => simp
    simp [hnonempty, hfix, hne]
  · rw [List.filter_append]
    have h1 : (cs.map fun ch => Event.systemChunk ch.content).filter
        isSystemCompleteEvent = [] := by
      rw [List.filter_eq_nil]
      intro e he
      obtain ⟨ch, _, rfl⟩ := List.mem_map.mp he
      simp [isSystemCompleteEvent]
    rw [h1]
    simp [isSystemCompleteEvent]

/-- Witness for C8 at two concrete system chunks and identity
substitution. -/
theorem c8_system_only_handler_witness :
    executeToolFunction (fun s => s)
        (.chunks [⟨"system", "A"⟩, ⟨"system", "B"⟩]) ""
      = .ok ([Event.systemChunk "A", Event.systemChunk "B",
              Event.systemComplete "AB"],
          { toolResult := "Generator tool completed", streamed := [],
            sysMsgs := ["AB"], ctxMsgs := [], finalContent := "" }) := by
  have h := (c8_system_only_handler_one_system_complete (fun s => s)
    [⟨"system", "A"⟩, ⟨"system", "B"⟩] "" (by simp)
    (by decide) rfl).1
  simpa using h

theorem runCleanups_names : ∀ ts : List Tool,
    (runCleanups ts).map Prod.fst
      = (ts.filter fun t => t.cleanup.isSome).map (·.schema.name) := by
  intro ts
  induction ts with
  | nil => rfl
  | cons t rest ih =>
    simp only [runCleanups] at ih
    cases hc : t.cleanup with
    | none => simp [runCleanups, List.filterMap_cons, List.filter_cons, hc, ih]
    | some ex =>
      cases ex <;>
        simp [runCleanups, List.filterMap_cons, List.filter_cons, hc, ih]

/-- C7: finalization always produces the cleanup record of the enabled
snapshot — for every script (normal completion, transport or handler
exception, external cancellation, or a run cut off mid-request alike) —
and that record lists every enabled capability with a callable cleanup
hook exactly once, in registry order, regardless of which hooks raise. -/
theorem c7_cleanups_every_ending_exactly_once :
    ∀ (subst : String → String) (registry : List Tool) (limit : Nat)
      (script : List ProviderStream) (base : List Msg),
      (inferenceRun subst registry limit script base).cleanups
          = runCleanups (getEnabledTools registry)
      ∧ (runCleanups (getEnabledTools registry)).map Prod.fst
          = ((getEnabledTools registry).filter fun t => t.cleanup.isSome).map
              (·.schema.name) :=
  fun _ registry _ _ _ => ⟨rfl, runCleanups_names (getEnabledTools registry)⟩

/-- C5 (amended): the budget is compared against the count of non-empty
used ids with multiplicity (`numToolsUsed`); once reached, the iteration
omits the availability prompt and empties the tools array while the status
block is still prepended; and the loop-continuation decision ignores the
budget entirely. -/
theorem c5_budget_reached_keeps_looping :
    (∀ (registry : List Tool) (limit : Nat) (base : List Msg)
        (used : List String),
      limit ≤ numToolsUsed used →
      (prepareLoopIteration registry limit base used).availableTools = []
      ∧ (prepareLoopIteration registry limit base used).toolPromptIncluded = false
      ∧ (prepareLoopIteration registry limit base used).messagesForApi
          = { role := "system",
              content := some (runAutoToolsAndStatus (getEnabledTools registry)),
              toolCalls := [] }
            :: base.filter fun m =>
                !(m.role == "system"
                  && (strContains (m.content.getD "") "tool(s):"
                      || strContains (m.content.getD "") "<STATUS_DASHBOARD>")))
    ∧ (∀ (d i : Bool) (nm : Option String) (ca : String) (b : List Msg),
        shouldContinueLoop d i nm ca b = d) := by
  constructor
  · intro registry limit base used hge
    have hnot : ¬(numToolsUsed used < limit) := by omega
    simp only [prepareLoopIteration]
    rw [if_neg hnot]
    exact ⟨rfl, rfl, rfl⟩
  · intro d i nm ca b; rfl

/-- Witness for the amended C5 at a concrete reached budget. -/
theorem c5_budget_reached_keeps_looping_witness :
    (prepareLoopIteration [sampleBudgetTool] 2 [] ["a", "a"]).availableTools = []
    ∧ (prepareLoopIteration [sampleBudgetTool] 2 [] ["a", "a"]).toolPromptIncluded
        = false := by
  have h := c5_budget_reached_keeps_looping.1 [sampleBudgetTool] 2 [] ["a", "a"]
    (by decide)
  exact ⟨h.1, h.2.1⟩

/-- C5 counterexample: with usage list `["a","a"]` the count of distinct
non-empty used ids is 1, below the budget of 2, yet the code (which counts
with multiplicity) empties the tools array and omits the availability
prompt for a callable, unconditional capability. -/
theorem c5_counterexample_distinct_vs_multiplicity :
    ((["a", "a"].filter fun n => !(n = "")).dedup.length < 2)
    ∧ (prepareLoopIteration [sampleBudgetTool] 2 [] ["a", "a"]).availableTools = []
    ∧ (prepareLoopIteration [sampleBudgetTool] 2 [] ["a", "a"]).toolPromptIncluded
        = false
    ∧ availEntry ["a", "a"] sampleBudgetTool = some sampleBudgetTool.schema := by
  refine ⟨by decide, by decide, by decide, by decide⟩

theorem statusLines_reporter_error_line (tools : List Tool) (t : Tool)
    (e : String) (ht : t ∈ tools) (hr : t.report = some (.error e)) :
    ("(Status error: " ++ e ++ ")") ∈ statusLines tools := by
  have hline : statusLineOf t = some ("(Status error: " ++ e ++ ")") := by
    simp [statusLineOf, hr]
  exact List.mem_filterMap.mpr ⟨t, ht, hline⟩

theorem availEntry_condition_error (used : List String) (t : Tool) (e : String)
    (hc : t.condition = some (.error e)) : availEntry used t = none := by
  simp only [availEntry, hc]
  split_ifs <;> rfl

theorem promptIncludedName_ignores_condition (used : List String) (t : Tool)
    (n : String) (hfn : t.fn.isNone = false) (hauto : t.auto_tool = false)
    (hname : t.schema.name = some n) (hne : ¬(n = ""))
    (hot : (t.one_time && used.contains n) = false) :
    promptIncludedName used t = some n := by
  simp only [promptIncludedName, hfn, hauto, hname, hne, hot]
  simp [hne]

theorem execChunksLoop_no_error (subst : String → String) :
    ∀ (cs : List RChunk) (st : ChunkLoopState),
    ∀ e ∈ (execChunksLoop subst cs st).1, isErrorEvent e = false := by
  intro cs
  induction cs with
  | nil => intro st e he; simp [execChunksLoop] at he
  | cons ch rest ih =>
    intro st e he
    simp only [execChunksLoop] at he
    by_cases h1 : ch.ctype = "system"
    · rw [if_pos h1] at he
      simp only [List.mem_cons] at he
      rcases he with rfl | he
      · rfl
      · exact ih _ e he
    · rw [if_neg h1] at he
      by_cases h2 : ch.ctype = "context"
      · rw [if_pos h2] at he
        simp only [List.mem_cons] at he
        rcases he with rfl | he
        · rfl
        · exact ih _ e he
      · rw [if_neg h2] at he
        simp only [List.mem_cons] at he
        rcases he with rfl | he
        · rfl
        · exact ih _ e he

theorem executeToolFunction_no_error (subst : String → String)
    (outcome : ToolOutcome) (fc : String) (evs : List Event) (out : ExecOut)
    (hok : executeToolFunction subst outcome fc = .ok (evs, out)) :
    ∀ e ∈ evs, isErrorEvent e = false := by
  intro e he
  cases outcome with
  | raises m => exact absurd hok (by simp [executeToolFunction])
  | plain v =>
    simp only [executeToolFunction, Except.ok.injEq, Prod.mk.injEq] at hok
    rw [← hok.1] at he
    simp at he
  | chunks cs =>
    simp only [executeToolFunction, Except.ok.injEq, Prod.mk.injEq] at hok
    rw [← hok.1] at he
    rcases List.mem_append.mp he with h1 | h2
    · rcases List.mem_append.mp h1 with h3 | h4
      · exact execChunksLoop_no_error subst cs _ e h3
      · by_cases hg : (execChunksLoop subst cs
            { finalContent := fc, streamed := [], sysGen := [], ctxGen := []
              }).2.sysGen.isEmpty
        · simp [hg] at h4
        · simp only [if_neg hg] at h4
          simp only [List.mem_singleton] at h4
          subst h4
          rfl
    · by_cases hg : (execChunksLoop subst cs
          { finalContent := fc, streamed := [], sysGen := [], ctxGen := []
            }).2.ctxGen.isEmpty
      · simp [hg] at h2
      · simp only [if_neg hg] at h2
        simp only [List.mem_singleton] at h2
        subst h2
        rfl

theorem processChunksLoop_no_error (subst : String → String)
    (registry : List Tool) :
    ∀ (chunks : List StreamChunk) (d : Bool) (nm : Option String) (args : String)
      (int : Bool) (content : String),
    ∀ e ∈ (processChunksLoop subst registry chunks d nm args int content).1,
      isErrorEvent e = false := by
  intro chunks
  induction chunks with
  | nil => intro d nm args int content e he; simp [processChunksLoop] at he
  | cons ch rest ih =>
    intro d nm args int content e he
    simp only [processChunksLoop] at he
    by_cases hct : (match ch.content with
        | some c => !(c = "")
        | none => false) = true
    · rw [if_pos hct] at he
      by_cases hd : d
      · rw [if_pos hd] at he
        exact ih _ _ _ _ _ e he
      · rw [if_neg hd] at he
        simp only [List.mem_cons] at he
        rcases he with rfl | he
        · rfl
        · exact ih _ _ _ _ _ e he
    · rw [if_neg hct] at he
      by_cases hf : ((handleToolCallStreaming ch.toolCalls d nm args).1
          && ch.finish == some "tool_calls") = true
      · rw [if_pos hf] at he
        cases hft : findToolByName (handleToolCallStreaming ch.toolCalls d nm args).2.1
            registry with
        | none => rw [hft] at he; simp at he
        | some t =>
          rw [hft] at he
          dsimp only at he
          cases hfn : t.fn with
          | none => rw [hfn] at he; simp at he
          | some outcome =>
            rw [hfn] at he
            dsimp only at he
            cases hex : executeToolFunction subst outcome content with
            | error m => rw [hex] at he; simp at he
            | ok eo =>
              rw [hex] at he
              dsimp only at he
              exact executeToolFunction_no_error subst outcome content eo.1 eo.2
                (by rw [hex]) e he
      · rw [if_neg hf] at he
        exact ih _ _ _ _ _ e he

/-- `String.join` distributes over cons. -/
theorem strJoin_cons (c : String) (l : List String) :
    String.join (c :: l) = c ++ String.join l := by
  have hshift : ∀ (l : List String) (a b : String),
      List.foldl (fun r s => r ++ s) (a ++ b) l
        = a ++ List.foldl (fun r s => r ++ s) b l := by
    intro l
    induction l with
    | nil => intro a b; rfl
    | cons x xs ih =>
      intro a b
      show List.foldl _ ((a ++ b) ++ x) xs = a ++ List.foldl _ (b ++ x) xs
      rw [String.append_assoc, ih a (b ++ x)]
  show List.foldl _ ("" ++ c) l = c ++ List.foldl _ "" l
  have h0 : ("" ++ c : String) = c ++ "" := by simp
  rw [h0, hshift l c ""]

/-- Content-only streams: with no tool-call delta in any chunk, the chunk
loop emits one ContentDelta per truthy content delta in delivery order and
finishes with the accumulated concatenation. -/
theorem processChunksLoop_content_only (subst : String → String)
    (registry : List Tool) :
    ∀ (chunks : List StreamChunk) (nm : Option String) (args : String)
      (int : Bool) (content : String),
    (∀ ch ∈ chunks, ch.toolCalls = []) →
    processChunksLoop subst registry chunks false nm args int content
      = ((truthyContents chunks).map Event.chunk,
         .finished false int nm args
           (content ++ String.join (truthyContents chunks))) := by
  intro chunks
  induction chunks with
  | nil =>
    intro nm args int content _
    simp [processChunksLoop, truthyContents, String.join]
  | cons ch rest ih =>
    intro nm args int content hall
    obtain ⟨chc, chtc, chf⟩ := ch
    have hch : chtc = [] :=
      hall ⟨chc, chtc, chf⟩ (List.mem_cons_self _ _)
    subst hch
    have hrest : ∀ c ∈ rest, c.toolCalls = [] := fun c hc => hall c (by simp [hc])
    have hhandle : handleToolCallStreaming [] false nm args = (false, nm, args) := by
      simp [handleToolCallStreaming]
    cases chc with
    | none =>
      simp only [processChunksLoop, hhandle]
      rw [if_neg (by simp)]
      rw [if_neg (by simp)]
      simp only [Bool.and_false, Bool.false_and, Bool.false_eq_true, if_false]
      rw [ih nm args int content hrest]
      simp [truthyContents]
    | some c =>
      by_cases hc0 : c = ""
      · subst hc0
        simp only [processChunksLoop, hhandle]
        rw [if_neg (by simp)]
        rw [if_neg (by simp)]
        simp only [Bool.and_false, Bool.false_and, Bool.false_eq_true, if_false]
        rw [ih nm args int content hrest]
        simp [truthyContents]
      · simp only [processChunksLoop, hhandle]
        rw [if_pos (by simp [hc0])]
        rw [if_neg (by simp)]
        simp only [Option.getD_some]
        rw [ih nm args int (content ++ c) hrest]
        have htc : truthyContents
            ({ content := some c, toolCalls := [], finish := chf } :: rest)
              = c :: truthyContents rest := by
          simp [truthyContents, hc0]
        rw [htc]
        simp [strJoin_cons, String.append_assoc]

theorem processStream_no_error (subst : String → String) (registry : List Tool)
    (s : ProviderStream) (fc : String) :
    ∀ e ∈ (processStream subst registry s fc).1, isErrorEvent e = false := by
  obtain ⟨chs, se⟩ := s
  intro e he
  simp only [processStream] at he
  cases hr : (processChunksLoop subst registry chs false none "" false fc).2 with
  | fired nm args out =>
    rw [hr] at he
    exact processChunksLoop_no_error subst registry _ _ _ _ _ _ e he
  | failed m =>
    rw [hr] at he
    exact processChunksLoop_no_error subst registry _ _ _ _ _ _ e he
  | finished d int nm ca content =>
    rw [hr] at he
    cases se <;>
      exact processChunksLoop_no_error subst registry _ _ _ _ _ _ e he

theorem runLoop_error_shape (subst : String → String) (registry : List Tool)
    (limit : Nat) :
    ∀ (script : List ProviderStream) (base : List Msg) (used : List String)
      (fc : String),
    (∀ e ∈ (runLoop subst registry limit script base used fc).1,
      isErrorEvent e = false)
    ∨ ∃ evs m,
        (runLoop subst registry limit script base used fc).1
          = evs ++ [Event.error m]
        ∧ (∀ e ∈ evs, isErrorEvent e = false) := by
  intro script
  induction script with
  | nil =>
    intro base used fc
    left
    intro e he
    simp [runLoop] at he
  | cons s restS ih =>
    intro base used fc
    simp only [runLoop]
    have hpse := processStream_no_error subst registry s fc
    cases hr : (processStream subst registry s fc).2 with
    | failedRun m =>
      right
      exact ⟨(processStream subst registry s fc).1, m, rfl, hpse⟩
    | cancelledRun =>
      left
      exact hpse
    | noToolCall detected int nm ca fc2 =>
      dsimp only
      by_cases hd : detected = true
      · rw [if_pos (by simp [shouldContinueLoop, hd])]
        rcases ih base used fc2 with hclean | ⟨evs2, m, heq, hclean⟩
        · left
          intro e he
          rcases List.mem_append.mp he with h1 | h2
          · exact hpse e h1
          · exact hclean e h2
        · right
          refine ⟨(processStream subst registry s fc).1 ++ evs2, m, ?_, ?_⟩
          · rw [heq, List.append_assoc]
          · intro e he
            rcases List.mem_append.mp he with h1 | h2
            · exact hpse e h1
            · exact hclean e h2
      · rw [if_neg (by simp [shouldContinueLoop, hd])]
        left
        intro e he
        rcases List.mem_append.mp he with h1 | h2
        · exact hpse e h1
        · simp only [List.mem_singleton] at h2
          subst h2
          rfl
    | toolCall nm args out =>
      dsimp only
      rcases ih (applyToolCallCompletion subst base used nm out).1
          (applyToolCallCompletion subst base used nm out).2 out.finalContent with
        hclean | ⟨evs2, m, heq, hclean⟩
      · left
        intro e he
        rcases List.mem_append.mp he with h1 | h2
        · exact hpse e h1
        · exact hclean e h2
      · right
        refine ⟨(processStream subst registry s fc).1 ++ evs2, m, ?_, ?_⟩
        · rw [heq, List.append_assoc]
        · intro e he
          rcases List.mem_append.mp he with h1 | h2
          · exact hpse e h1
          · exact hclean e h2

/-- C6: in every run, Error events occur only as the very last emitted
event and there is at most one of them (events already emitted are never
retracted — the list is only ever extended); and a transport exception
raised while streaming content aborts the run with exactly one Error event
carrying the exception message, after all previously delivered
ContentDelta events. -/
theorem c6_transport_failure_single_error :
    (∀ (subst : String → String) (registry : List Tool) (limit : Nat)
        (script : List ProviderStream) (base : List Msg),
      (∀ e ∈ (inferenceRun subst registry limit script base).events.dropLast,
        isErrorEvent e = false)
      ∧ (inferenceRun subst registry limit script base).events.countP
          (fun e => isErrorEvent e) ≤ 1)
    ∧ (∀ (subst : String → String) (limit : Nat) (base : List Msg)
        (msg : String) (chunks : List StreamChunk),
      (∀ ch ∈ chunks, ch.toolCalls = []) →
      (inferenceRun subst [] limit [⟨chunks, .raiseExc msg⟩] base).events
        = Event.start :: (truthyContents chunks).map Event.chunk
            ++ [Event.error msg]) := by
  constructor
  · intro subst registry limit script base
    rcases runLoop_error_shape subst registry limit script base [] "" with
      hclean | ⟨evs, m, heq, hclean⟩
    · constructor
      · intro e he
        have hm : e ∈ (inferenceRun subst registry limit script base).events :=
          List.dropLast_subset _ he
        simp only [inferenceRun, List.mem_cons] at hm
        rcases hm with rfl | hm
        · rfl
        · exact hclean e hm
      · have h0 : (inferenceRun subst registry limit script base).events.countP
            (fun e => isErrorEvent e) = 0 := by
          rw [List.countP_eq_zero]
          intro e he
          simp only [inferenceRun, List.mem_cons] at he
          rcases he with rfl | he
          · simp [isErrorEvent]
          · simp [hclean e he]
        omega
    · have hev : (inferenceRun subst registry limit script base).events
          = (Event.start :: evs) ++ [Event.error m] := by
        simp [inferenceRun, heq]
      constructor
      · intro e he
        rw [hev, List.dropLast_concat] at he
        simp only [List.mem_cons] at he
        rcases he with rfl | he
        · rfl
        · exact hclean e he
      · rw [hev, List.countP_append]
        have h0 : (Event.start :: evs).countP (fun e => isErrorEvent e) = 0 := by
          rw [List.countP_eq_zero]
          intro e he
          simp only [List.mem_cons] at he
          rcases he with rfl | he
          · simp [isErrorEvent]
          · simp [hclean e he]
        rw [h0]
        simp [isErrorEvent]
  · intro subst limit base msg chunks hall
    simp only [inferenceRun, runLoop, processStream,
      processChunksLoop_content_only subst [] chunks none "" false "" hall]
    rfl

/-- Witness for C6 at a two-delta stream failing with message "boom". -/
theorem c6_transport_failure_single_error_witness :
    (inferenceRun (fun s => s) [] 3
        [⟨[{ content := some "par", toolCalls := [], finish := none },
           { content := some "tial", toolCalls := [], finish := none }],
          .raiseExc "boom"⟩] []).events
      = Event.start :: [Event.chunk "par", Event.chunk "tial"]
          ++ [Event.error "boom"] := by
  have h := c6_transport_failure_single_error.2 (fun s => s) 3 [] "boom"
    [{ content := some "par", toolCalls := [], finish := none },
     { content := some "tial", toolCalls := [], finish := none }]
    (by decide)
  simpa [truthyContents] using h

/-- C1: with no capabilities and a stream that carries no tool-call delta
and ends normally, the run emits exactly Start, one ContentDelta per
truthy content delta in delivery order, then Complete, whose text is the
concatenation of the ContentDelta payloads. -/
theorem c1_no_tools_content_stream_events
    (subst : String → String) (limit : Nat) (base : List Msg)
    (chunks : List StreamChunk) (hall : ∀ ch ∈ chunks, ch.toolCalls = []) :
    (inferenceRun subst [] limit [⟨chunks, .normal⟩] base).events
      = Event.start :: (truthyContents chunks).map Event.chunk
          ++ [Event.complete (String.join (truthyContents chunks))] := by
  simp only [inferenceRun, runLoop, processStream,
    processChunksLoop_content_only subst [] chunks none "" false "" hall]
  simp [shouldContinueLoop]

/-- Witness for C1: Scenario A with deltas "Hel", "lo". -/
theorem c1_no_tools_content_stream_events_witness :
    (inferenceRun (fun s => s) [] 3 [sampleContentStream] []).events
      = Event.start :: [Event.chunk "Hel", Event.chunk "lo"]
          ++ [Event.complete "Hello"] := by
  have h := c1_no_tools_content_stream_events (fun s => s) 3 []
    sampleContentStream.chunks (by decide)
  simpa [sampleContentStream, truthyContents] using h

theorem processChunksLoop_not_failed (subst : String → String)
    (registry : List Tool)
    (hreg : ∀ t ∈ registry, ∃ oc, t.fn = some oc ∧ ∀ m, ¬(oc = .raises m)) :
    ∀ (chunks : List StreamChunk) (d : Bool) (nm : Option String) (args : String)
      (int : Bool) (content : String) (m : String),
    ¬((processChunksLoop subst registry chunks d nm args int content).2
        = .failed m) := by
  intro chunks
  induction chunks with
  | nil =>
    intro d nm args int content m h
    simp [processChunksLoop] at h
  | cons ch rest ih =>
    intro d nm args int content m h
    simp only [processChunksLoop] at h
    by_cases hct : (match ch.content with
        | some c => !(c = "")
        | none => false) = true
    · rw [if_pos hct] at h
      by_cases hd : d = true
      · rw [if_pos hd] at h
        exact ih _ _ _ _ _ m h
      · rw [if_neg hd] at h
        exact ih _ _ _ _ _ m h
    · rw [if_neg hct] at h
      by_cases hf : ((handleToolCallStreaming ch.toolCalls d nm args).1
          && ch.finish == some "tool_calls") = true
      · rw [if_pos hf] at h
        cases hft : findToolByName
            (handleToolCallStreaming ch.toolCalls d nm args).2.1 registry with
        | none => rw [hft] at h; simp at h
        | some t =>
          rw [hft] at h
          dsimp only at h
          have htmem : t ∈ registry := by
            have := List.mem_of_find?_eq_some hft
            exact this
          obtain ⟨oc, hoc, hnr⟩ := hreg t htmem
          rw [hoc] at h
          dsimp only at h
          cases hex : executeToolFunction subst oc content with
          | error mm =>
            cases oc with
            | plain v => simp [executeToolFunction] at hex
            | chunks cs => simp [executeToolFunction] at hex
            | raises mm2 => exact absurd rfl (hnr mm2)
          | ok eo => rw [hex] at h; simp at h
      · rw [if_neg hf] at h
        exact ih _ _ _ _ _ m h

theorem runLoop_no_error (subst : String → String) (registry : List Tool)
    (limit : Nat)
    (hreg : ∀ t ∈ registry, ∃ oc, t.fn = some oc ∧ ∀ m, ¬(oc = .raises m)) :
    ∀ (script : List ProviderStream) (base : List Msg) (used : List String)
      (fc : String),
    (∀ s ∈ script, s.ending = .normal) →
    ∀ e ∈ (runLoop subst registry limit script base used fc).1,
      isErrorEvent e = false := by
  intro script
  induction script with
  | nil => intro base used fc _ e he; simp [runLoop] at he
  | cons s restS ih =>
    intro base used fc hend e he
    have hse : s.ending = .normal := hend s (by simp)
    have hrest : ∀ x ∈ restS, x.ending = .normal := fun x hx => hend x (by simp [hx])
    have hpse := processStream_no_error subst registry s fc
    simp only [runLoop] at he
    cases hr : (processStream subst registry s fc).2 with
    | failedRun m =>
      exfalso
      simp only [processStream] at hr
      cases hc : (processChunksLoop subst registry s.chunks false none "" false
          fc).2 with
      | fired nm args out => rw [hc] at hr; simp at hr
      | failed mm =>
        exact processChunksLoop_not_failed subst registry hreg s.chunks false
          none "" false fc mm hc
      | finished d int nm ca content =>
        rw [hc] at hr
        rw [hse] at hr
        simp at hr
    | cancelledRun =>
      rw [hr] at he
      exact hpse e he
    | noToolCall detected int nm ca fc2 =>
      rw [hr] at he
      dsimp only at he
      by_cases hd : detected = true
      · rw [if_pos (by simp [shouldContinueLoop, hd])] at he
        rcases List.mem_append.mp he with h1 | h2
        · exact hpse e h1
        · exact ih base used fc2 hrest e h2
      · rw [if_neg (by simp [shouldContinueLoop, hd])] at he
        rcases List.mem_append.mp he with h1 | h2
        · exact hpse e h1
        · simp only [List.mem_singleton] at h2
          subst h2
          rfl
    | toolCall nm args out =>
      rw [hr] at he
      dsimp only at he
      rcases List.mem_append.mp he with h1 | h2
      · exact hpse e h1
      · exact ih _ _ out.finalContent hrest e h2

/-- C3 (amended): a status-reporter exception is recovered but the
capability is not silent — it contributes the line `(Status error: <e>)`
to the status block; a condition-predicate exception is recovered and
excludes the capability from that iteration's available-tools set, but the
capability still appears in the availability prompt (whose construction
never consults conditions); and neither kind of exception produces an
Error event: runs over normally-ending streams with non-raising callable
handlers emit no Error event whatever the conditions and reporters do. -/
theorem c3_condition_status_errors_recovered :
    (∀ (tools : List Tool) (t : Tool) (e : String),
      t ∈ tools → t.report = some (.error e) →
      ("(Status error: " ++ e ++ ")") ∈ statusLines tools)
    ∧ (∀ (used : List String) (t : Tool) (e : String),
        t.condition = some (.error e) → availEntry used t = none)
    ∧ (∀ (used : List String) (t : Tool) (n : String) (e : String),
        t.condition = some (.error e) →
        t.fn.isNone = false → t.auto_tool = false → t.schema.name = some n →
        ¬(n = "") → (t.one_time && used.contains n) = false →
        promptIncludedName used t = some n)
    ∧ (∀ (subst : String → String) (registry : List Tool) (limit : Nat)
        (script : List ProviderStream) (base : List Msg),
        (∀ s ∈ script, s.ending = .normal) →
        (∀ t ∈ registry, ∃ oc, t.fn = some oc ∧ ∀ m, ¬(oc = .raises m)) →
        ∀ e ∈ (inferenceRun subst registry limit script base).events,
          isErrorEvent e = false) := by
  refine ⟨statusLines_reporter_error_line, availEntry_condition_error,
    fun used t n e _ => promptIncludedName_ignores_condition used t n, ?_⟩
  intro subst registry limit script base hend hreg e he
  simp only [inferenceRun, List.mem_cons] at he
  rcases he with rfl | he
  · rfl
  · exact runLoop_no_error subst registry limit hreg script base [] "" hend e he

/-- C3 counterexample: a capability whose status reporter raises "boom"
contributes the line "(Status error: boom)" to the status block instead of
being silently excluded, and a capability whose condition raises is still
listed in the availability prompt. -/
theorem c3_counterexample_reporter_line :
    statusLines
        [{ enabled := true, auto_tool := false, one_time := false,
           schema := { name := some "x", description := "" }, fn := none,
           condition := none, report := some (.error "boom"), cleanup := none }]
      = ["(Status error: boom)"]
    ∧ promptIncludedName []
        { enabled := true, auto_tool := false, one_time := false,
          schema := { name := some "y", description := "" },
          fn := some (.plain ""), condition := some (.error "c"),
          report := none, cleanup := none }
        = some "y" := by
  constructor
  · rfl
  · rfl

/-- Witness for C3 at a reporter-raising capability, a condition-raising
capability and a concrete error-free run. -/
theorem c3_condition_status_errors_recovered_witness :
    ("(Status error: boom)" ∈ statusLines
      [{ enabled := true, auto_tool := false, one_time := false,
         schema := { name := some "x", description := "" }, fn := none,
         condition := none, report := some (.error "boom"), cleanup := none
         }])
    ∧ availEntry []
        { enabled := true, auto_tool := false, one_time := false,
          schema := { name := some "y", description := "" },
          fn := some (.plain ""), condition := some (.error "c"),
          report := none, cleanup := none } = none
    ∧ ((inferenceRun (fun s => s) [sampleBudgetTool] 3 [sampleContentStream]
          []).events.all fun e => !(isErrorEvent e)) = true := by
  refine ⟨?_, ?_, ?_⟩
  · exact c3_condition_status_errors_recovered.1 _ _ "boom"
      (List.mem_cons_self _ _) rfl
  · exact c3_condition_status_errors_recovered.2.1 [] _ "c" rfl
  · have h := c3_condition_status_errors_recovered.2.2.2 (fun s => s)
      [sampleBudgetTool] 3 [sampleContentStream] [] (by decide)
      (by
        intro t ht
        simp only [List.mem_singleton] at ht
        subst ht
        exact ⟨.plain "", rfl, fun m => by simp⟩)
    exact List.all_eq_true.mpr fun e hee => by simp [h e hee]

theorem promptIncludedName_inv (used : List String) (t : Tool) (n : String)
    (hp : promptIncludedName used t = some n) :
    t.schema.name = some n ∧ (t.one_time && used.contains n) = false := by
  simp only [promptIncludedName] at hp
  by_cases h1 : t.fn.isNone = true
  · rw [if_pos h1] at hp; cases hp
  · rw [if_neg h1] at hp
    by_cases h2 : t.auto_tool = true
    · rw [if_pos h2] at hp; cases hp
    · rw [if_neg h2] at hp
      cases hsn : t.schema.name with
      | none => rw [hsn] at hp; cases hp
      | some n2 =>
        rw [hsn] at hp
        dsimp only at hp
        by_cases h3 : n2 = ""
        · rw [if_pos h3] at hp; cases hp
        · rw [if_neg h3] at hp
          by_cases h4 : (t.one_time && used.contains n2) = true
          · rw [if_pos h4] at hp; cases hp
          · rw [if_neg h4] at hp
            have hn : n2 = n := Option.some.inj hp
            refine ⟨by rw [hn], ?_⟩
            rw [← hn]
            simpa using h4

theorem promptNames_mem_inv (used : List String) (tools : List Tool) (n : String)
    (h : n ∈ promptNames used tools) :
    ∃ t ∈ tools, promptIncludedName used t = some n := by
  simp only [promptNames, promptEntries, List.mem_map, List.mem_filterMap] at h
  obtain ⟨⟨n2, line⟩, ⟨t, ht, hmap⟩, hfst⟩ := h
  rw [Option.map_eq_some'] at hmap
  obtain ⟨a, ha, hfa⟩ := hmap
  have han : a = n := by
    have := congrArg Prod.fst hfa
    simpa using this.trans hfst
  exact ⟨t, ht, by rw [ha, han]⟩

theorem availEntry_some_schema (used : List String) (t : Tool) (s : ToolSchema)
    (h : availEntry used t = some s) : s = t.schema := by
  simp only [availEntry] at h
  by_cases h1 : t.auto_tool = true
  · rw [if_pos h1] at h; cases h
  · rw [if_neg h1] at h
    by_cases h2 : t.fn.isNone = true
    · rw [if_pos h2] at h; cases h
    · rw [if_neg h2] at h
      by_cases h3 : (t.one_time && match t.schema.name with
          | some n => used.contains n
          | none => false) = true
      · rw [if_pos h3] at h; cases h
      · rw [if_neg h3] at h
        cases hc : t.condition with
        | none => rw [hc] at h; exact (Option.some.inj h).symm
        | some ex =>
          rw [hc] at h
          cases ex with
          | error e => cases h
          | ok b =>
            dsimp only at h
            by_cases hb : b = true
            · rw [if_pos hb] at h; exact (Option.some.inj h).symm
            · rw [if_neg hb] at h; cases h

theorem availEntry_oneTime_used (used : List String) (t : Tool) (n : String)
    (hname : t.schema.name = some n) (hot : t.one_time = true)
    (hmem : n ∈ used) : availEntry used t = none := by
  have hcont : used.contains n = true := by simpa using hmem
  simp [availEntry, hname, hot, hcont]
  intro _ _ hnot
  exact absurd hmem hnot

theorem availNames_mem_inv (used : List String) (tools : List Tool) (n : String)
    (h : n ∈ (filterAvailableTools tools used).filterMap (·.name)) :
    ∃ t ∈ tools, availEntry used t = some t.schema ∧ t.schema.name = some n := by
  simp only [List.mem_filterMap] at h
  obtain ⟨s, hs, hn⟩ := h
  obtain ⟨t, ht, hats⟩ := List.mem_filterMap.mp hs
  have hss := availEntry_some_schema used t s hats
  subst hss
  exact ⟨t, ht, hats, hn⟩

theorem oneTime_used_not_in_promptNames (used : List String) (tools : List Tool)
    (n : String)
    (hall : ∀ t ∈ tools, t.schema.name = some n → t.one_time = true)
    (hmem : n ∈ used) : ¬(n ∈ promptNames used tools) := by
  intro hin
  obtain ⟨t, ht, hp⟩ := promptNames_mem_inv used tools n hin
  obtain ⟨hname, hfalse⟩ := promptIncludedName_inv used t n hp
  rw [hall t ht hname] at hfalse
  simp at hfalse
  exact hfalse hmem

theorem oneTime_used_not_in_availNames (used : List String) (tools : List Tool)
    (n : String)
    (hall : ∀ t ∈ tools, t.schema.name = some n → t.one_time = true)
    (hmem : n ∈ used) :
    ¬(n ∈ (filterAvailableTools tools used).filterMap (·.name)) := by
  intro hin
  obtain ⟨t, ht, hat, hname⟩ := availNames_mem_inv used tools n hin
  rw [availEntry_oneTime_used used t n hname (hall t ht hname) hmem] at hat
  cases hat

theorem iterRecordOf_usedAtEntry (registry : List Tool) (limit : Nat)
    (base : List Msg) (used : List String) :
    (iterRecordOf registry limit base used).usedAtEntry = used := rfl

theorem iterRecordOf_promptListedNames (registry : List Tool) (limit : Nat)
    (base : List Msg) (used : List String) :
    (iterRecordOf registry limit base used).promptListedNames
      = (if numToolsUsed used < limit
         then promptNames used (getEnabledTools registry) else []) := rfl

theorem iterRecordOf_availableNames (registry : List Tool) (limit : Nat)
    (base : List Msg) (used : List String) :
    (iterRecordOf registry limit base used).availableNames
      = (if numToolsUsed used < limit
         then (filterAvailableTools (getEnabledTools registry) used).filterMap
           (·.name)
         else []) := by
  simp only [iterRecordOf, prepareLoopIteration]
  by_cases h : numToolsUsed used < limit <;> simp [h]

theorem applyToolCallCompletion_used (subst : String → String) (base : List Msg)
    (used : List String) (name : Option String) (out : ExecOut) :
    (applyToolCallCompletion subst base used name out).2
      = used ++ [name.getD ""] := rfl

theorem runLoop_trace_mem_record (subst : String → String) (registry : List Tool)
    (limit : Nat) :
    ∀ (script : List ProviderStream) (base : List Msg) (used : List String)
      (fc : String) (rec : IterRecord),
    rec ∈ (runLoop subst registry limit script base used fc).2.1 →
    ∃ b u, rec = iterRecordOf registry limit b u := by
  intro script
  induction script with
  | nil => intro base used fc rec h; simp [runLoop] at h
  | cons s restS ih =>
    intro base used fc rec h
    simp only [runLoop] at h
    cases hr : (processStream subst registry s fc).2 with
    | failedRun m =>
      rw [hr] at h
      dsimp only at h
      simp only [List.mem_singleton] at h
      exact ⟨base, used, h⟩
    | cancelledRun =>
      rw [hr] at h
      dsimp only at h
      simp only [List.mem_singleton] at h
      exact ⟨base, used, h⟩
    | noToolCall detected int nm ca fc2 =>
      rw [hr] at h
      dsimp only at h
      by_cases hd : detected = true
      · rw [if_pos (by simp [shouldContinueLoop, hd])] at h
        simp only [List.mem_cons] at h
        rcases h with rfl | h
        · exact ⟨base, used, rfl⟩
        · exact ih base used fc2 rec h
      · rw [if_neg (by simp [shouldContinueLoop, hd])] at h
        simp only [List.mem_singleton] at h
        exact ⟨base, used, h⟩
    | toolCall nm args out =>
      rw [hr] at h
      dsimp only at h
      simp only [List.mem_cons] at h
      rcases h with rfl | h
      · exact ⟨base, used, rfl⟩
      · exact ih _ _ out.finalContent rec h

theorem runLoop_trace_mem_shape (subst : String → String) (registry : List Tool)
    (limit : Nat) (script : List ProviderStream) (base : List Msg)
    (used : List String) (fc : String) (rec : IterRecord)
    (h : rec ∈ (runLoop subst registry limit script base used fc).2.1) :
    rec.promptListedNames
        = (if numToolsUsed rec.usedAtEntry < limit
           then promptNames rec.usedAtEntry (getEnabledTools registry) else [])
    ∧ rec.availableNames
        = (if numToolsUsed rec.usedAtEntry < limit
           then (filterAvailableTools (getEnabledTools registry)
             rec.usedAtEntry).filterMap (·.name)
           else []) := by
  obtain ⟨b, u, rfl⟩ :=
    runLoop_trace_mem_record subst registry limit script base used fc rec h
  rw [iterRecordOf_promptListedNames, iterRecordOf_availableNames,
    iterRecordOf_usedAtEntry]
  exact ⟨rfl, rfl⟩

theorem runLoop_trace_used_extends (subst : String → String)
    (registry : List Tool) (limit : Nat) :
    ∀ (script : List ProviderStream) (base : List Msg) (used : List String)
      (fc : String) (rec : IterRecord),
    rec ∈ (runLoop subst registry limit script base used fc).2.1 →
    ∀ x ∈ used, x ∈ rec.usedAtEntry := by
  intro script
  induction script with
  | nil => intro base used fc rec h; simp [runLoop] at h
  | cons s restS ih =>
    intro base used fc rec h x hx
    simp only [runLoop] at h
    cases hr : (processStream subst registry s fc).2 with
    | failedRun m =>
      rw [hr] at h
      dsimp only at h
      simp only [List.mem_singleton] at h
      subst h
      exact hx
    | cancelledRun =>
      rw [hr] at h
      dsimp only at h
      simp only [List.mem_singleton] at h
      subst h
      exact hx
    | noToolCall detected int nm ca fc2 =>
      rw [hr] at h
      dsimp only at h
      by_cases hd : detected = true
      · rw [if_pos (by simp [shouldContinueLoop, hd])] at h
        simp only [List.mem_cons] at h
        rcases h with rfl | h
        · exact hx
        · exact ih base used fc2 rec h x hx
      · rw [if_neg (by simp [shouldContinueLoop, hd])] at h
        simp only [List.mem_singleton] at h
        subst h
        exact hx
    | toolCall nm args out =>
      rw [hr] at h
      dsimp only at h
      simp only [List.mem_cons] at h
      rcases h with rfl | h
      · exact hx
      · refine ih _ _ out.finalContent rec h x ?_
        rw [applyToolCallCompletion_used]
        exact List.mem_append_left _ hx

theorem runLoop_trace_mono (subst : String → String) (registry : List Tool)
    (limit : Nat) :
    ∀ (script : List ProviderStream) (base : List Msg) (used : List String)
      (fc : String) (i j : Nat) (ri rj : IterRecord),
    i ≤ j →
    (runLoop subst registry limit script base used fc).2.1.get? i = some ri →
    (runLoop subst registry limit script base used fc).2.1.get? j = some rj →
    ∀ x ∈ ri.usedAtEntry, x ∈ rj.usedAtEntry := by
  intro script
  induction script with
  | nil => intro base used fc i j ri rj hij hi hj; simp [runLoop] at hi
  | cons s restS ih =>
    intro base used fc i j ri rj hij hi hj x hx
    simp only [runLoop] at hi hj
    cases hr : (processStream subst registry s fc).2 with
    | failedRun m =>
      rw [hr] at hi hj
      dsimp only at hi hj
      cases i with
      | zero =>
        cases j with
        | zero =>
          have h1 : ri = iterRecordOf registry limit base used := by
            have := hi; simpa using this.symm
          have h2 : rj = iterRecordOf registry limit base used := by
            have := hj; simpa using this.symm
          rw [h2, ← h1]
          exact hx
        | succ jj => simp at hj
      | succ ii => simp at hi
    | cancelledRun =>
      rw [hr] at hi hj
      dsimp only at hi hj
      cases i with
      | zero =>
        cases j with
        | zero =>
          have h1 : ri = iterRecordOf registry limit base used := by
            have := hi; simpa using this.symm
          have h2 : rj = iterRecordOf registry limit base used := by
            have := hj; simpa using this.symm
          rw [h2, ← h1]
          exact hx
        | succ jj => simp at hj
      | succ ii => simp at hi
    | noToolCall detected int nm ca fc2 =>
      rw [hr] at hi hj
      dsimp only at hi hj
      by_cases hd : detected = true
      · rw [if_pos (by simp [shouldContinueLoop, hd])] at hi hj
        cases i with
        | zero =>
          have h1 : ri = iterRecordOf registry limit base used := by
            have := hi; simpa using this.symm
          cases j with
          | zero =>
            have h2 : rj = iterRecordOf registry limit base used := by
              have := hj; simpa using this.symm
            rw [h2, ← h1]
            exact hx
          | succ jj =>
            have hj2 : (runLoop subst registry limit restS base used
                fc2).2.1.get? jj = some rj := by simpa using hj
            refine runLoop_trace_used_extends subst registry limit restS base
              used fc2 rj (List.get?_mem hj2) x ?_
            rw [h1] at hx
            exact hx
        | succ ii =>
          cases j with
          | zero => omega
          | succ jj =>
            exact ih base used fc2 ii jj ri rj (by omega) (by simpa using hi)
              (by simpa using hj) x hx
      · rw [if_neg (by simp [shouldContinueLoop, hd])] at hi hj
        cases i with
        | zero =>
          cases j with
          | zero =>
            have h1 : ri = iterRecordOf registry limit base used := by
              have := hi; simpa using this.symm
            have h2 : rj = iterRecordOf registry limit base used := by
              have := hj; simpa using this.symm
            rw [h2, ← h1]
            exact hx
          | succ jj => simp at hj
        | succ ii => simp at hi
    | toolCall nm args out =>
      rw [hr] at hi hj
      dsimp only at hi hj
      cases i with
      | zero =>
        have h1 : ri = iterRecordOf registry limit base used := by
            have := hi; simpa using this.symm
        cases j with
        | zero =>
          have h2 : rj = iterRecordOf registry limit base used := by
            have := hj; simpa using this.symm
          rw [h2, ← h1]
          exact hx
        | succ jj =>
          have hj2 : (runLoop subst registry limit restS
              (applyToolCallCompletion subst base used nm out).1
              (applyToolCallCompletion subst base used nm out).2
              out.finalContent).2.1.get? jj = some rj := by simpa using hj
          refine runLoop_trace_used_extends subst registry limit restS _ _
            out.finalContent rj (List.get?_mem hj2) x ?_
          rw [applyToolCallCompletion_used]
          refine List.mem_append_left _ ?_
          rw [h1] at hx
          exact hx
      | succ ii =>
        cases j with
        | zero => omega
        | succ jj =>
          exact ih _ _ out.finalContent ii jj ri rj (by omega)
            (by simpa using hi) (by simpa using hj) x hx

/-- C2: once a one-time capability's name is in the run's usage list at
some iteration, every subsequent iteration's availability prompt and
available-tools set omit it (name uniqueness within the enabled snapshot
is assumed in the form: every enabled tool carrying that name is
one-time). -/
theorem c2_one_time_used_excluded_subsequently
    (subst : String → String) (registry : List Tool) (limit : Nat)
    (script : List ProviderStream) (base : List Msg)
    (i j : Nat) (ri rj : IterRecord) (n : String)
    (hij : i ≤ j)
    (hi : (inferenceRun subst registry limit script base).trace.get? i = some ri)
    (hj : (inferenceRun subst registry limit script base).trace.get? j = some rj)
    (hall : ∀ t ∈ getEnabledTools registry, t.schema.name = some n →
      t.one_time = true)
    (hmem : n ∈ ri.usedAtEntry) :
    ¬(n ∈ rj.promptListedNames) ∧ ¬(n ∈ rj.availableNames) := by
  have hmono := runLoop_trace_mono subst registry limit script base [] "" i j
    ri rj hij hi hj n hmem
  have hrjmem : rj ∈ (runLoop subst registry limit script base [] "").2.1 :=
    List.get?_mem hj
  obtain ⟨hprompt, havail⟩ := runLoop_trace_mem_shape subst registry limit
    script base [] "" rj hrjmem
  constructor
  · rw [hprompt]
    by_cases hb : numToolsUsed rj.usedAtEntry < limit
    · rw [if_pos hb]
      exact oneTime_used_not_in_promptNames _ _ n hall hmono
    · rw [if_neg hb]
      simp
  · rw [havail]
    by_cases hb : numToolsUsed rj.usedAtEntry < limit
    · rw [if_pos hb]
      exact oneTime_used_not_in_availNames _ _ n hall hmono
    · rw [if_neg hb]
      simp

/-- Witness for C2 at a concrete run: after `roll` is used in iteration 1,
iteration 2 lists it neither in the prompt nor among the tools. -/
theorem c2_one_time_used_excluded_subsequently_witness :
    ¬("roll" ∈ sampleIterRecord.promptListedNames)
    ∧ ¬("roll" ∈ sampleIterRecord.availableNames) :=
  c2_one_time_used_excluded_subsequently (fun s => s) [sampleOneTimeTool] 3
    [sampleToolCallStream, sampleContentStream] [] 1 1
    sampleIterRecord sampleIterRecord
    "roll" le_rfl (by decide) (by decide) (by decide) (by decide)

theorem heapGet_mono (h : MsgHeap) (ext : List Msg) (i : Nat) (v : Msg)
    (hv : heapGet h i = some v) :
    heapGet { cells := h.cells ++ ext } i = some v := by
  have hi : i < h.cells.length := by
    by_contra hni
    rw [heapGet, List.get?_eq_none.mpr (by omega)] at hv
    cases hv
  rw [heapGet]
  show (h.cells ++ ext).get? i = some v
  rw [List.get?_append hi]
  exact hv

theorem prepareApiRequest_aux (subst : String → String) :
    ∀ (refs : List Nat) (h : MsgHeap) (out : List Nat),
    (∃ ext, (List.foldl (prepareApiRequestStep subst) (h, out) refs).1.cells
        = h.cells ++ ext)
    ∧ (∃ newRefs,
        (List.foldl (prepareApiRequestStep subst) (h, out) refs).2
          = out ++ newRefs
        ∧ newRefs.length = refs.length
        ∧ ∀ (k r : Nat) (m : Msg), refs.get? k = some r → heapGet h r = some m →
            ∃ r2, newRefs.get? k = some r2
              ∧ heapGet (List.foldl (prepareApiRequestStep subst) (h, out)
                  refs).1 r2 = some (substMsg subst m)) := by
  intro refs
  induction refs with
  | nil =>
    intro h out
    exact ⟨⟨[], by simp⟩,
      ⟨[], by simp, rfl, fun k r m hk => by simp at hk⟩⟩
  | cons rr rest ih =>
    intro h out
    have hstep : ∃ h1 y,
        prepareApiRequestStep subst (h, out) rr = (h1, out ++ [y])
        ∧ (∃ ext1, h1.cells = h.cells ++ ext1)
        ∧ (∀ m, heapGet h rr = some m →
            heapGet h1 y = some (substMsg subst m)) := by
      cases hg : heapGet h rr with
      | none =>
        refine ⟨h, rr, ?_, ⟨[], by simp⟩, fun m hm => Option.noConfusion hm⟩
        simp [prepareApiRequestStep, hg]
      | some m =>
        cases hc : m.content with
        | none =>
          refine ⟨h, rr, ?_, ⟨[], by simp⟩, fun m2 hm2 => ?_⟩
          · simp [prepareApiRequestStep, hg, hc]
          · rw [hg, show m2 = m from (Option.some.inj hm2).symm]
            simp [substMsg, hc]
        | some c =>
          by_cases hc0 : c = ""
          · subst hc0
            refine ⟨h, rr, ?_, ⟨[], by simp⟩, fun m2 hm2 => ?_⟩
            · simp [prepareApiRequestStep, hg, hc]
            · rw [hg, show m2 = m from (Option.some.inj hm2).symm]
              simp [substMsg, hc]
          · refine ⟨{ cells := h.cells
                ++ [{ m with content := some (subst c) }] },
              h.cells.length, ?_, ⟨_, rfl⟩, fun m2 hm2 => ?_⟩
            · simp [prepareApiRequestStep, hg, hc, hc0, heapAlloc]
            · rw [show m2 = m from (Option.some.inj hm2).symm]
              rw [heapGet]
              show (h.cells ++ [{ m with content := some (subst c) }]).get?
                h.cells.length = _
              rw [List.get?_concat_length]
              simp [substMsg, hc, hc0]
    obtain ⟨h1, y, hst, ⟨ext1, hext1⟩, hcontent⟩ := hstep
    simp only [List.foldl_cons, hst]
    obtain ⟨⟨ext2, hext2⟩, ⟨newRefs2, hnr2, hlen2, hmap2⟩⟩ := ih h1 (out ++ [y])
    refine ⟨⟨ext1 ++ ext2, by rw [hext2, hext1, List.append_assoc]⟩,
      ⟨y :: newRefs2, ?_, by simp [hlen2], ?_⟩⟩
    · rw [hnr2]
      simp
    · intro k r m hk hm
      cases k with
      | zero =>
        have hr : r = rr := Option.some.inj (by simpa using hk.symm)
        subst hr
        have h1y := hcontent m hm
        refine ⟨y, by simp, ?_⟩
        have hfold : (List.foldl (prepareApiRequestStep subst) (h1, out ++ [y])
            rest).1.cells = h1.cells ++ ext2 := hext2
        have := heapGet_mono h1 ext2 y (substMsg subst m) h1y
        rw [show ({ cells := h1.cells ++ ext2 } : MsgHeap)
            = (List.foldl (prepareApiRequestStep subst) (h1, out ++ [y])
                rest).1 from by
          cases hfr : (List.foldl (prepareApiRequestStep subst) (h1, out ++ [y])
            rest).1
          simp only [MsgHeap.mk.injEq]
          rw [← hfold, hfr]] at this
        exact this
      | succ kk =>
        have hm1 : heapGet h1 r = some m := by
          have := heapGet_mono h ext1 r m hm
          rw [show ({ cells := h.cells ++ ext1 } : MsgHeap) = h1 from by
            cases hh1 : h1
            simp only [MsgHeap.mk.injEq]
            rw [← hext1, hh1]] at this
          exact this
        obtain ⟨r2, hr2, hr2get⟩ := hmap2 kk r m (by simpa using hk) hm1
        exact ⟨r2, by simpa using hr2, hr2get⟩

/-- C9: the copy-then-substitute loop of `_prepare_api_request` never
mutates an existing message cell (the stored history reads the same after
the call), and the transmitted list has one entry per input message whose
cell carries the substituted content of the original (messages without
truthy content are passed through unchanged, by reference). -/
theorem c9_substitution_copies_never_mutate (subst : String → String)
    (h : MsgHeap) (refs : List Nat) :
    (∀ i, i < h.cells.length →
      heapGet (prepareApiRequestRefs subst h refs).1 i = heapGet h i)
    ∧ (prepareApiRequestRefs subst h refs).2.length = refs.length
    ∧ (∀ (k r : Nat) (m : Msg), refs.get? k = some r → heapGet h r = some m →
        ∃ r2, (prepareApiRequestRefs subst h refs).2.get? k = some r2
          ∧ heapGet (prepareApiRequestRefs subst h refs).1 r2
              = some (substMsg subst m)) := by
  obtain ⟨⟨ext, hext⟩, ⟨newRefs, hnr, hlen, hmap⟩⟩ :=
    prepareApiRequest_aux subst refs h []
  refine ⟨?_, ?_, ?_⟩
  · intro i hi
    show heapGet (List.foldl (prepareApiRequestStep subst) (h, []) refs).1 i
      = heapGet h i
    rw [heapGet, hext, List.get?_append hi]
    rfl
  · show (List.foldl (prepareApiRequestStep subst) (h, []) refs).2.length = _
    rw [hnr]
    simpa using hlen
  · intro k r m hk hm
    obtain ⟨r2, hr2, hget⟩ := hmap k r m hk hm
    refine ⟨r2, ?_, hget⟩
    show (List.foldl (prepareApiRequestStep subst) (h, []) refs).2.get? k
      = some r2
    rw [hnr]
    simpa using hr2

/-- Witness for C9 on a one-message heap. -/
theorem c9_substitution_copies_never_mutate_witness :
    heapGet (prepareApiRequestRefs (fun _ => "S") sampleHeap [0]).1 0
      = heapGet sampleHeap 0
    ∧ (prepareApiRequestRefs (fun _ => "S") sampleHeap [0]).2.length
        = [0].length := by
  have h := c9_substitution_copies_never_mutate (fun _ => "S") sampleHeap [0]
  exact ⟨h.1 0 (by decide), h.2.1⟩

end Ghostpad
